import Mathlib

/-!
Verification of the rawhide disk-image reading library.

The Go sources are shallowly embedded: pure functions become Lean
functions, random-access byte sources (`io.ReaderAt`) are modeled by
`Image`, and fallible operations return `Option`/`Except`.  Machine
integers are modeled by `Int`/`Nat`, with explicit reductions modulo
`2 ^ 64` / `2 ^ 32` / `256` wherever Go's fixed-width wraparound
semantics can matter.
-/

namespace Rawhide

/-- Outcome classification for a read: end-of-stream (`io.EOF`) or any
other error.  Mirrors the two classes the Go code distinguishes with
`err != io.EOF`. -/
inductive RErr where
  | eof
  | err
deriving DecidableEq

/-- A random-access byte source of a given size: the model of an
`io.ReaderAt` backed by a file or buffer.  `byte` gives the content at
every offset; only offsets in `[0, size)` are ever observable. -/
structure Image where
  size : Int
  byte : Int → Nat

/-- `img.readAt off n` models `ReadAt(p, off)` with `len(p) = n` on a
file-like reader: a negative offset is an error, otherwise the
available bytes up to `n` are returned, with `io.EOF` when fewer than
`n` were available (matching `os.File.ReadAt` and the test helper
`bytesBuffer.ReadAt`). -/
def Image.readAt (img : Image) (off : Int) (n : Nat) : List Nat × Option RErr :=
  if off < 0 then ([], some .err)
  else
    let k := min n (img.size - off).toNat
    ((List.range k).map fun i : Nat => img.byte (off + (i : Int)),
     if k < n then some .eof else none)

/-- A read that succeeds only when the whole buffer was filled:
models the `if _, err := r.ReadAt(buf, off); err != nil` pattern. -/
def Image.readFull (img : Image) (off : Int) (n : Nat) : Option (List Nat) :=
  match img.readAt off n with
  | (bs, none) => some bs
  | _ => none

/-- `fsys.Extent`: maps logical offsets `[Logical, Logical+Length)` of a
stream to physical offsets `[Physical, Physical+Length)` of its parent. -/
structure Extent where
  Logical : Int
  Physical : Int
  Length : Int
deriving DecidableEq

/-- Decidable test that extent `e` covers logical offset `x`
(the loop condition `off >= ext.Logical && off < ext.Logical+ext.Length`). -/
def coversb (x : Int) (e : Extent) : Bool :=
  decide (e.Logical ≤ x) && decide (x < e.Logical + e.Length)

/-- Well-formed extent list, as assumed by the spec: sorted by logical
offset and non-overlapping in the logical domain (`Pairwise`), with
strictly positive lengths and non-negative offsets. -/
def WFExtents (es : List Extent) : Prop :=
  es.Pairwise (fun a b => a.Logical + a.Length ≤ b.Logical) ∧
  ∀ e ∈ es, 0 < e.Length ∧ 0 ≤ e.Logical ∧ 0 ≤ e.Physical

instance (es : List Extent) : Decidable (WFExtents es) := by
  unfold WFExtents; infer_instance

/-- The `nextStart` scan of `ComposeExtents`: Go folds over `inner`
keeping the least `Logical` strictly greater than `innerLogical`, with
`-1` as the "none found" sentinel. -/
def composeNextStart (inner : List Extent) (innerLogical : Int) : Int :=
  inner.foldl
    (fun ns i =>
      if i.Logical > innerLogical ∧ (ns < 0 ∨ i.Logical < ns) then i.Logical else ns)
    (-1)

/-- Inner loop of `ComposeExtents` for one outer extent: walk
`[innerLogical, innerLogical+remaining)` through the inner extents,
emitting composed extents and skipping holes.  Each iteration advances
`remaining` by at least one, so running it with `fuel =
remaining.toNat` reproduces the Go loop exactly (the `fuel = 0` branch
with positive `remaining` is unreachable). -/
def composeWalk (inner : List Extent) :
    Nat → Int → Int → Int → List Extent
  | 0, _, _, _ => []
  | fuel + 1, outerLogical, innerLogical, remaining =>
    if remaining ≤ 0 then []
    else
      match inner.find? (coversb innerLogical) with
      | some i =>
        let offsetInInner := innerLogical - i.Logical
        let availableInInner := i.Length - offsetInInner
        let useLength := min remaining availableInInner
        ⟨outerLogical, i.Physical + offsetInInner, useLength⟩ ::
          composeWalk inner fuel (outerLogical + useLength)
            (innerLogical + useLength) (remaining - useLength)
      | none =>
        let nextStart := composeNextStart inner innerLogical
        if nextStart < 0 then []
        else
          let gap := min (nextStart - innerLogical) remaining
          composeWalk inner fuel (outerLogical + gap) (innerLogical + gap)
            (remaining - gap)

/-- `fsys.ComposeExtents`: composes outer extents (whose `Physical` is a
logical address of the inner coordinate space) with inner extents. -/
def ComposeExtents (outer inner : List Extent) : List Extent :=
  outer.foldl
    (fun composed o =>
      composed ++ composeWalk inner o.Length.toNat o.Logical o.Physical o.Length)
    []

/-- Insertion of an extent into a list sorted by `Logical`. -/
def insertByLogical (e : Extent) : List Extent → List Extent
  | [] => [e]
  | x :: xs => if e.Logical < x.Logical then e :: x :: xs else x :: insertByLogical e xs

/-- The `sort.Slice(..., Logical <)` call of `NewExtentReaderAt`.
`sort.Slice` produces some permutation sorted by `Logical`; we fix
insertion sort as the deterministic representative. -/
def sortExtents (es : List Extent) : List Extent :=
  es.foldr insertByLogical []

/-- An `io.ReaderAt` as seen by `NewExtentReaderAt`'s type switch:
either a plain byte source or (a pointer to) an `ExtentReaderAt`. -/
inductive GoReaderAt where
  | base : Image → GoReaderAt
  | extent : GoReaderAt → List Extent → Int → GoReaderAt

/-- `fsys.ExtentReaderAt`: a backing reader, a list of extents and a
logical size. -/
structure ExtentReaderAt where
  r : GoReaderAt
  extents : List Extent
  size : Int

/-- `fsys.NewExtentReaderAt`: sorts the extents by logical offset and,
when the backing reader is itself an `ExtentReaderAt`, composes the
mappings so the new reader points directly at the inner backing reader. -/
def NewExtentReaderAt (r : GoReaderAt) (extents : List Extent) (size : Int) :
    ExtentReaderAt :=
  let sorted := sortExtents extents
  match r with
  | .extent ir iexts _ => ⟨ir, ComposeExtents sorted iexts, size⟩
  | .base img => ⟨.base img, sorted, size⟩

/-- View an `ExtentReaderAt` as an `io.ReaderAt` (taking its address in
Go), for passing it back into `NewExtentReaderAt`. -/
def ExtentReaderAt.toReaderAt (e : ExtentReaderAt) : GoReaderAt :=
  .extent e.r e.extents e.size

/-- A chain of nested `NewExtentReaderAt` constructions over a base
reader: the first layer wraps the base image, each later layer wraps the
previous result. -/
def buildChain (b : Image) (l0 : List Extent × Int)
    (ls : List (List Extent × Int)) : ExtentReaderAt :=
  ls.foldl (fun acc l => NewExtentReaderAt acc.toReaderAt l.1 l.2)
    (NewExtentReaderAt (.base b) l0.1 l0.2)

/-- An `ExtentReaderAt` whose backing reader has been resolved to a raw
byte source — the shape every reader built through `NewExtentReaderAt`
has, used for the read-path model. -/
structure ERat where
  root : Image
  extents : List Extent
  size : Int

/-- `ExtentReaderAt.findExtent`: first extent of the list containing the
offset. -/
def ERat.findExtent (e : ERat) (off : Int) : Option Extent :=
  e.extents.find? (coversb off)

/-- `ExtentReaderAt.nextExtentStart`: start of the first extent (in list
order) beyond `off`, or the logical size. -/
def ERat.nextExtentStart (e : ERat) (off : Int) : Int :=
  match e.extents.find? (fun x => decide (off < x.Logical)) with
  | some x => x.Logical
  | none => e.size

/-- The loop of `ExtentReaderAt.ReadAt`.  Returns the bytes read, the
error result (`none` = `nil`), and the final value of `off`.  Every
iteration advances by at least one byte, so `fuel = remaining`
reproduces the Go loop (the `fuel = 0, remaining > 0` branch is
unreachable). -/
def eReadLoop (e : ERat) :
    Nat → Nat → Int → List Nat × Option RErr × Int
  | 0, _, off => ([], none, off)
  | fuel + 1, remaining, off =>
    if remaining = 0 ∨ e.size ≤ off then ([], none, off)
    else
      match e.findExtent off with
      | none =>
        let gapEnd := min (e.nextExtentStart off) e.size
        let zeroLen := min (gapEnd - off).toNat remaining
        let rest := eReadLoop e fuel (remaining - zeroLen) (off + zeroLen)
        (List.replicate zeroLen 0 ++ rest.1, rest.2.1, rest.2.2)
      | some ext =>
        let extentOffset := off - ext.Logical
        let extentRemaining := ext.Length - extentOffset
        let toRead := min extentRemaining.toNat remaining
        let physOffset := ext.Physical + extentOffset
        let res := e.root.readAt physOffset toRead
        let nr := res.1.length
        if res.2 = some RErr.err then (res.1, some RErr.err, off + nr)
        else if nr < toRead then (res.1, some RErr.eof, off + nr)
        else
          let rest := eReadLoop e fuel (remaining - nr) (off + nr)
          (res.1 ++ rest.1, rest.2.1, rest.2.2)

/-- `ExtentReaderAt.ReadAt` with a buffer of length `plen` at offset
`off`: returns the bytes placed in the buffer and the error result. -/
def eReadAt (e : ERat) (plen : Nat) (off : Int) : List Nat × Option RErr :=
  if off < 0 then ([], some .err)
  else if e.size ≤ off then ([], some .eof)
  else
    let plen' := if e.size < off + (plen : Int) then (e.size - off).toNat else plen
    let res := eReadLoop e plen' plen' off
    if res.1.length = 0 ∧ e.size ≤ res.2.2 then ([], some .eof)
    else (res.1, res.2.1)

/-- Translation of a logical offset through an extent list: the physical
position the first covering extent assigns to `x`, if any.  This is the
lookup both `findExtent`-based reading and `ComposeExtents` perform. -/
def translateAt (exts : List Extent) (x : Int) : Option Int :=
  (exts.find? (coversb x)).map fun e => e.Physical + (x - e.Logical)

/-- Total logical length of an extent list. -/
def totalLength (es : List Extent) : Int :=
  (es.map Extent.Length).sum

/-- Result of reading a single byte directly from an image: the
normal form both sides of the compose-correctness equation reduce to. -/
def readByteResult (img : Image) (p : Int) : List Nat × Option RErr :=
  if p < 0 then ([], some RErr.err)
  else if p < img.size then ([img.byte p], none)
  else ([], some RErr.eof)

/-! ### XTS-AES layer (package xts) -/

/-- An AES block cipher instance as handed out by `crypto/aes`
(a `cipher.Block` with block size 16): abstract encryption and
decryption on 16-byte blocks.  The `cipher.Block` contract (which AES
satisfies) — that both functions map 16-byte blocks to 16-byte blocks
and are mutually inverse — is carried as hypotheses of the theorems. -/
structure BlockCipher where
  enc : List Nat → List Nat
  dec : List Nat → List Nat

/-- `xts.Cipher`: data cipher `k1`, tweak cipher `k2`, sector size
(a Go `int`) and tweak offset (a `uint64` value, `< 2^64`). -/
structure Cipher where
  k1 : BlockCipher
  k2 : BlockCipher
  sectorSize : Int
  tweakOffset : Nat

/-- `xts.New`: validates the key length and sector size, splits the key
in half and builds the two AES instances.  `aesFamily` models
`aes.NewCipher`, which cannot fail here because the half-key lengths
16/24/32 are always valid AES key sizes. -/
def xtsNew (aesFamily : List Nat → BlockCipher) (key : List Nat)
    (sectorSize : Int) (tweakOffset : Nat) : Except String Cipher :=
  if key.length ≠ 32 ∧ key.length ≠ 48 ∧ key.length ≠ 64 then
    .error "xts: invalid key length"
  else if sectorSize < 16 then
    .error "xts: sector size must be at least 16 bytes"
  else
    let halfLen := key.length / 2
    .ok ⟨aesFamily (key.take halfLen), aesFamily (key.drop halfLen),
      sectorSize, tweakOffset⟩

/-- `xts.xorBlock`: byte-wise XOR of a 16-byte block with the tweak
(both slices have length 16 at every call site). -/
def xorBlock (b x : List Nat) : List Nat :=
  List.zipWith Nat.xor b x

/-- The byte loop of `xts.gfMul`: left shift with carry chain, byte
arithmetic modulo 256 (`newCarry = b[i] >> 7`, `b[i] = b[i]<<1 | carry`). -/
def gfMulAux : List Nat → Nat → List Nat × Nat
  | [], carry => ([], carry)
  | b :: bs, carry =>
    let newCarry := b / 128
    let rest := gfMulAux bs newCarry
    (((b * 2) % 256 ||| carry) :: rest.1, rest.2)

/-- `xts.gfMul`: multiply by x in GF(2^128); on carry-out XOR the
reduction byte `0x87` into byte 0. -/
def gfMul (b : List Nat) : List Nat :=
  let r := gfMulAux b 0
  if r.2 ≠ 0 then
    match r.1 with
    | [] => []
    | h :: t => (h ^^^ 0x87) :: t
  else r.1

/-- `binary.LittleEndian.PutUint64` of the tweak into the low 8 bytes of
the 16-byte tweak buffer; the upper 8 bytes stay zero. -/
def tweakBytes (tweak : Nat) : List Nat :=
  (List.range 8).map (fun i => tweak / 256 ^ i % 256) ++ List.replicate 8 0

/-- The block loop of `Cipher.process`, fuel-indexed for structural
recursion: XEX transform of each 16-byte block, multiplying the tweak
by x after each block; a trailing fragment shorter than 16 bytes is
left untouched.  Each iteration consumes 16 bytes and one unit of fuel,
so fuel `data.length` always suffices. -/
def processBlocksGo (f : List Nat → List Nat) :
    Nat → List Nat → List Nat → List Nat
  | 0, _, data => data
  | fuel + 1, T, data =>
    if data.length < 16 then data
    else
      xorBlock (f (xorBlock (data.take 16) T)) T ++
        processBlocksGo f fuel (gfMul T) (data.drop 16)

/-- The block loop of `Cipher.process` (`numBlocks = len/16`). -/
def processBlocks (f : List Nat → List Nat) (T : List Nat) (data : List Nat) :
    List Nat :=
  processBlocksGo f data.length T data

/-- `Cipher.process`: encrypt the 128-bit tweak with K2, then run the
block loop with K1 in the requested direction.  (The Go function's
error result is always `nil`.) -/
def Cipher.process (c : Cipher) (data : List Nat) (tweak : Nat)
    (decrypt : Bool) : List Nat :=
  processBlocks (if decrypt then c.k1.dec else c.k1.enc)
    (c.k2.enc (tweakBytes tweak)) data

/-- `Cipher.EncryptSector`: length check, then process with tweak
`sectorNum + tweakOffset` (uint64 addition). -/
def Cipher.EncryptSector (c : Cipher) (data : List Nat) (sectorNum : Nat) :
    Except String (List Nat) :=
  if (data.length : Int) ≠ c.sectorSize then
    .error "xts: data length != sector size"
  else .ok (c.process data ((sectorNum + c.tweakOffset) % 2 ^ 64) false)

/-- `Cipher.DecryptSector`. -/
def Cipher.DecryptSector (c : Cipher) (data : List Nat) (sectorNum : Nat) :
    Except String (List Nat) :=
  if (data.length : Int) ≠ c.sectorSize then
    .error "xts: data length != sector size"
  else .ok (c.process data ((sectorNum + c.tweakOffset) % 2 ^ 64) true)

/-- The sector loop shared by `Cipher.Encrypt` and `Cipher.Decrypt`:
apply `op` to `n` consecutive sectors of `sectorSize` bytes,
incrementing the (uint64) sector number for each.  In Go the sectors
are disjoint in-place slices; since `op` preserves the sector length
(the `cipher.Block` contract), this equals processing by take/drop. -/
def xtsSectors (op : List Nat → Nat → Except String (List Nat))
    (sectorSize : Nat) : Nat → List Nat → Nat → Except String (List Nat)
  | _, data, 0 => .ok data
  | start, data, n + 1 => do
    let c1 ← op (data.take sectorSize) start
    let rest ← xtsSectors op sectorSize ((start + 1) % 2 ^ 64)
      (data.drop sectorSize) n
    .ok (c1 ++ rest)

/-- `Cipher.Encrypt`: multiple-of-sector-size check, then the sector
loop with `EncryptSector`. -/
def Cipher.Encrypt (c : Cipher) (data : List Nat) (startSector : Nat) :
    Except String (List Nat) :=
  if (data.length : Int) % c.sectorSize ≠ 0 then
    .error "xts: data length not a multiple of sector size"
  else
    xtsSectors (fun d s => c.EncryptSector d s) c.sectorSize.toNat
      startSector data ((data.length : Int) / c.sectorSize).toNat

/-- `Cipher.Decrypt`. -/
def Cipher.Decrypt (c : Cipher) (data : List Nat) (startSector : Nat) :
    Except String (List Nat) :=
  if (data.length : Int) % c.sectorSize ≠ 0 then
    .error "xts: data length not a multiple of sector size"
  else
    xtsSectors (fun d s => c.DecryptSector d s) c.sectorSize.toNat
      startSector data ((data.length : Int) / c.sectorSize).toNat

/-- Error classification of `xts.ReaderAt.ReadAt`, mirroring the
distinct error values the Go method can return. -/
inductive XtsErr where
  | eof
  | negOffset
  | ioErr
  | incompleteSector
  | decryptErr
deriving DecidableEq

/-- `xts.ReaderAt`: backing reader, cipher and logical size. -/
structure XtsReaderAt where
  r : Image
  cipher : Cipher
  size : Int

/-- First sector touched by a read at `off`
(`startSector := off / sectorSize`, Go `int64` division). -/
def XtsReaderAt.startSector (x : XtsReaderAt) (off : Int) : Int :=
  Int.tdiv off x.cipher.sectorSize

/-- The sector-aligned backing read of `xts.ReaderAt.ReadAt`: reads
`(endSector - startSector) * sectorSize` bytes at
`startSector * sectorSize`. -/
def XtsReaderAt.alignedRead (x : XtsReaderAt) (plen : Nat) (off : Int) :
    List Nat × Option RErr :=
  let sectorSize := x.cipher.sectorSize
  let endOffset := min (off + (plen : Int)) x.size
  let endSector := Int.tdiv (endOffset + sectorSize - 1) sectorSize
  x.r.readAt (x.startSector off * sectorSize)
    ((endSector - x.startSector off) * sectorSize).toNat

/-- `xts.ReaderAt.ReadAt`: read the sector-aligned range, decrypt the
complete sectors read, and copy the requested slice out. -/
def XtsReaderAt.ReadAt (x : XtsReaderAt) (plen : Nat) (off : Int) :
    List Nat × Option XtsErr :=
  if off < 0 then ([], some .negOffset)
  else if x.size ≤ off then ([], some .eof)
  else
    let sectorSize := x.cipher.sectorSize
    let res := x.alignedRead plen off
    if res.2 = some RErr.err then ([], some .ioErr)
    else
      let readN := res.1.length
      let completeSectors := readN / sectorSize.toNat
      if completeSectors = 0 then
        if 0 < readN then ([], some .incompleteSector)
        else ([], some .eof)
      else
        let decryptLen := completeSectors * sectorSize.toNat
        match x.cipher.Decrypt (res.1.take decryptLen)
            (x.startSector off).toNat with
        | .error _ => ([], some .decryptErr)
        | .ok dec =>
          let offsetInBuf := (off - x.startSector off * sectorSize).toNat
          let available := decryptLen - offsetInBuf
          let toCopy := min plen available
          ((dec.drop offsetInBuf).take toCopy,
           if x.size ≤ off + (toCopy : Int) then some .eof else none)

/-- The identity block cipher, used to instantiate witnesses (any
concrete `cipher.Block`-contract-satisfying pair works). -/
def idBlockCipher : BlockCipher :=
  ⟨fun b => b, fun b => b⟩


/-! ### NBD server (package nbd) -/

/-- Reinterpret a `uint64` bit pattern as a Go `int64`
(the conversion `int64(offset)`). -/
def int64OfUInt64 (n : Nat) : Int :=
  if n < 2 ^ 63 then (n : Int) else (n : Int) - 2 ^ 64

/-- Reinterpret a Go `int64` as `uint64` (the conversion
`uint64(exp.Size)`). -/
def uint64OfInt64 (z : Int) : Nat :=
  (z % 2 ^ 64).toNat

/-- NBD simple-reply error codes used by the transmission phase. -/
def nbdErrNone : Nat := 0

def nbdErrIo : Nat := 5

def nbdErrInval : Nat := 22

/-- `session.handleRead`: bounds check in `uint64` arithmetic, backing
read at `int64(offset)`, zero-fill of the unread tail, and the reply
`(error code, payload)`. -/
def nbdHandleRead (exportSize : Int) (reader : Image)
    (offset length : Nat) : Nat × List Nat :=
  if (offset + length) % 2 ^ 64 > uint64OfInt64 exportSize then (nbdErrInval, [])
  else
    let res := reader.readAt (int64OfUInt64 offset) length
    if res.2 = some RErr.err then (nbdErrIo, [])
    else (nbdErrNone, res.1 ++ List.replicate (length - res.1.length) 0)


/-! ### Partition-table parser (package part) -/

/-- Wrap an integer into Go `int64` range (two's-complement overflow of
`int64` arithmetic). -/
def wrap64 (z : Int) : Int :=
  (z + 2 ^ 63) % 2 ^ 64 - 2 ^ 63

/-- Byte slice `l[a:b]` of a Go byte slice. -/
def slice (l : List Nat) (a b : Nat) : List Nat :=
  (l.drop a).take (b - a)

/-- Little-endian integer value of a byte slice (the
`binary.LittleEndian.UintNN` decoders). -/
def leNat (bs : List Nat) : Nat :=
  bs.foldr (fun b acc => b + 256 * acc) 0

/-- `part.Partition` (GPT fields; `SizeLBA = endLBA - startLBA + 1` in
wrapping `uint64` arithmetic). -/
structure Partition where
  Index : Nat
  TypeGUID : List Nat
  StartLBA : Nat
  SizeLBA : Nat
  Label : List Nat
deriving DecidableEq

/-- `part.isZeroGUID`. -/
def isZeroGUID (g : List Nat) : Bool :=
  g.all (· = 0)

/-- `part.decodeUTF16LE` up to code units: drop a trailing odd byte,
decode little-endian 16-bit units, truncate at the first NUL.  (Go
additionally converts the units to runes via `utf16.Decode`; the label
plays no role in any claim, so the model keeps the code units.) -/
def decodeUTF16LE (data : List Nat) : List Nat :=
  let d := if data.length % 2 = 0 then data else data.take (data.length - 1)
  ((List.range (d.length / 2)).map fun i : Nat =>
    leNat (slice d (2 * i) (2 * i + 2))).takeWhile (· ≠ 0)

/-- The read of GPT partition entry `i`:
`ReadAt(entry, entryOffset + int64(i)*int64(partitionEntrySize))`,
with `int64` overflow made explicit. -/
def gptEntryAt (img : Image) (entryOffset : Int) (esize : Nat) (i : Nat) :
    Option (List Nat) :=
  img.readFull (wrap64 (entryOffset + wrap64 ((i : Int) * (esize : Int)))) esize

/-- Whether GPT entry `i` is used (read succeeds and its type GUID is
not all zeros). -/
def gptEntryUsed (img : Image) (entryOffset : Int) (esize : Nat) (i : Nat) :
    Bool :=
  match gptEntryAt img entryOffset esize i with
  | some entry => ! isZeroGUID (slice entry 0 16)
  | none => false

/-- The entry loop of `parseGPT`: for each index, read the entry (a
failed read stops the loop), skip zero-GUID entries, and append a
partition for each used entry (`Index = len(partitions)`). -/
def parseGPTEntries (img : Image) (entryOffset : Int) (esize : Nat) :
    List Nat → List Partition → List Partition
  | [], acc => acc
  | i :: rest, acc =>
    match gptEntryAt img entryOffset esize i with
    | none => acc
    | some entry =>
      if isZeroGUID (slice entry 0 16) then
        parseGPTEntries img entryOffset esize rest acc
      else
        parseGPTEntries img entryOffset esize rest
          (acc ++ [⟨acc.length, slice entry 0 16,
            leNat (slice entry 32 40),
            (leNat (slice entry 40 48) + 2 ^ 64 - leNat (slice entry 32 40) + 1)
              % 2 ^ 64,
            decodeUTF16LE (slice entry 56 128)⟩])

/-- `FS.parseGPT`: header at LBA 1, signature check, fixed-offset
fields, entry-size validation, then the entry loop over
`num_partition_entries` indices. -/
def parseGPT (img : Image) : Except Unit (List Partition) :=
  match img.readFull 512 512 with
  | none => .error ()
  | some header =>
    if slice header 0 8 ≠ [69, 70, 73, 32, 80, 65, 82, 84] then .error ()
    else if leNat (slice header 84 88) < 128 then .error ()
    else
      .ok (parseGPTEntries img
        (wrap64 (int64OfUInt64 (leNat (slice header 72 80)) * 512))
        (leNat (slice header 84 88))
        (List.range (leNat (slice header 80 84))) [])

/-- A GPT image declaring 129 partition entries, all with a non-zero
type GUID: header at offset 512 with `"EFI PART"`, entry LBA 2,
`num_partition_entries = 129`, `partition_entry_size = 128`; each entry
has first byte 1 and is otherwise zero. -/
def gptManyImage : Image :=
  ⟨1024 + 129 * 128, fun off =>
    if off = 512 then 69
    else if off = 513 then 70
    else if off = 514 then 73
    else if off = 515 then 32
    else if off = 516 then 80
    else if off = 517 then 65
    else if off = 518 then 82
    else if off = 519 then 84
    else if off = 584 then 2
    else if off = 592 then 129
    else if off = 596 then 128
    else if 1024 ≤ off ∧ (off - 1024) % 128 = 0 then 1
    else 0⟩

/-- A small GPT image declaring two entries, the first used and the
second with a zero type GUID. -/
def gptSmallImage : Image :=
  ⟨1024 + 2 * 128, fun off =>
    if off = 512 then 69
    else if off = 513 then 70
    else if off = 514 then 73
    else if off = 515 then 32
    else if off = 516 then 80
    else if off = 517 then 65
    else if off = 518 then 82
    else if off = 519 then 84
    else if off = 584 then 2
    else if off = 592 then 2
    else if off = 596 then 128
    else if off = 1024 then 1
    else 0⟩

/-! ### FAT parser (package fat) -/

/-- The BPB fields `fat.parseBPB` extracts. -/
structure Bpb where
  bytesPerSector : Nat
  sectorsPerCluster : Nat
  reservedSectors : Nat
  numFATs : Nat
  rootEntryCount : Nat
  totalSectors : Nat
  fatSize : Nat
  rootCluster : Nat
  firstDataSector : Nat
  dataSectors : Nat
  countOfClusters : Nat
  isFAT32 : Bool
deriving DecidableEq

/-- `FS.parseBPB` plus the type-string decision.  Returns `none` when
`bytesPerSector` or `sectorsPerCluster` is zero (where Go would panic
with a division by zero, so no filesystem is ever opened).  `uint32`
subtraction wraps modulo `2^32`. -/
def parseBPB (header : List Nat) : Option (Bpb × String) :=
  let bytesPerSector := leNat (slice header 11 13)
  let sectorsPerCluster := header.getD 13 0
  let reservedSectors := leNat (slice header 14 16)
  let numFATs := header.getD 16 0
  let rootEntryCount := leNat (slice header 17 19)
  let totalSectors16 := leNat (slice header 19 21)
  let fatSize16 := leNat (slice header 22 24)
  let totalSectors32 := leNat (slice header 32 36)
  let totalSectors := if totalSectors16 ≠ 0 then totalSectors16 else totalSectors32
  let fatSize := if fatSize16 ≠ 0 then fatSize16 else leNat (slice header 36 40)
  let rootCluster := if fatSize16 ≠ 0 then 0 else leNat (slice header 44 48)
  let isFAT32 := fatSize16 == 0
  if bytesPerSector = 0 ∨ sectorsPerCluster = 0 then none
  else
    let rootDirSectors :=
      ((rootEntryCount * 32) + bytesPerSector - 1) / bytesPerSector
    let firstDataSector :=
      (reservedSectors + numFATs * fatSize + rootDirSectors) % 2 ^ 32
    let dataSectors := (totalSectors + 2 ^ 32 - firstDataSector) % 2 ^ 32
    let countOfClusters := dataSectors / sectorsPerCluster
    some (⟨bytesPerSector, sectorsPerCluster, reservedSectors, numFATs,
        rootEntryCount, totalSectors, fatSize, rootCluster, firstDataSector,
        dataSectors, countOfClusters, isFAT32⟩,
      if isFAT32 then "FAT32"
      else if countOfClusters < 4085 then "FAT12"
      else "FAT16")

/-- `fat.Open` up to the parsed state: boot-sector read, `0x55 0xAA`
signature check, then `parseBPB`.  All failure modes (read error, wrong
signature, `parseBPB` panic) collapse to `none`: the claims concern
successfully opened filesystems only. -/
def fatOpen (img : Image) : Option (Bpb × String) :=
  match img.readFull 0 512 with
  | none => none
  | some header =>
    if header.getD 510 0 = 0x55 ∧ header.getD 511 0 = 0xAA then parseBPB header
    else none

/-- A FAT boot sector with `bytesPerSector = 512`,
`sectorsPerCluster = 1`, one reserved sector, one FAT of one sector,
no root entries, `totalSectors32 = 70000` and a non-zero 16-bit FAT
size (so not structurally FAT32): its cluster count is 69998. -/
def fatBigImage : Image :=
  ⟨512, fun off =>
    if off = 12 then 2
    else if off = 13 then 1
    else if off = 14 then 1
    else if off = 16 then 1
    else if off = 22 then 1
    else if off = 32 then 112
    else if off = 33 then 17
    else if off = 34 then 1
    else if off = 510 then 85
    else if off = 511 then 170
    else 0⟩


/-! ### Free-space reporting (FreeBlocks of part, fat, ext) -/

/-- `fsys.Range`: byte range `[Start, Stop)` (the Go field `End` is a
Lean keyword, so it is named `Stop` here). -/
structure Range where
  Start : Int
  Stop : Int
deriving DecidableEq

/-- The free-range invariant of the spec: ascending by start,
non-overlapping, and each range non-empty. -/
def RangesWF (rs : List Range) : Prop :=
  rs.Pairwise (fun a b => a.Stop ≤ b.Start) ∧ ∀ r ∈ rs, r.Start < r.Stop

instance (rs : List Range) : Decidable (RangesWF rs) := by
  unfold RangesWF; infer_instance

/-- State of the free-run scan loops of `fat.FreeBlocks` and
`ext.FreeBlocks`: the `inFreeRange` flag, `rangeStart`, and the ranges
accumulated so far. -/
structure ScanSt where
  inFree : Bool
  rangeStart : Int
  ranges : List Range
deriving DecidableEq

/-- One iteration of the free-run scan: open a new run on a free unit,
close the current run on an allocated unit. -/
def scanStep (off : Int) (isFree : Bool) (st : ScanSt) : ScanSt :=
  if isFree ∧ ¬ st.inFree = true then ⟨true, off, st.ranges⟩
  else if ¬ isFree = true ∧ st.inFree then
    ⟨false, st.rangeStart, st.ranges ++ [⟨st.rangeStart, off⟩]⟩
  else st

/-- The scan loop over a list of unit indices. -/
def scanFold (offset : Nat → Int) (free : Nat → Bool) :
    List Nat → ScanSt → ScanSt
  | [], st => st
  | i :: rest, st => scanFold offset free rest (scanStep (offset i) (free i) st)

/-- `fat.fatTable`: FAT location and variant flags. -/
structure FatTable where
  startOffset : Int
  isFAT32 : Bool
  isFAT12 : Bool

/-- `fatTable.next`: read the FAT entry of a cluster (12-bit packed,
16-bit, or 28-bit-masked 32-bit); a failed read is `none`. -/
def fatNext (img : Image) (t : FatTable) (cluster : Nat) : Option Nat :=
  if t.isFAT12 then
    (img.readFull (t.startOffset + ((cluster * 3 / 2 : Nat) : Int)) 2).map
      fun buf => if cluster % 2 = 0 then leNat buf % 4096 else leNat buf / 16
  else if t.isFAT32 then
    (img.readFull (t.startOffset + ((cluster * 4 : Nat) : Int)) 4).map
      fun buf => leNat buf % 2 ^ 28
  else
    (img.readFull (t.startOffset + ((cluster * 2 : Nat) : Int)) 2).map
      fun buf => leNat buf

/-- `FS.clusterToOffset` (all clusters passed are ≥ 2). -/
def clusterToOffset (b : Bpb) (cluster : Nat) : Int :=
  (b.firstDataSector : Int) * (b.bytesPerSector : Int) +
    ((cluster : Int) - 2) * (b.sectorsPerCluster : Int) * (b.bytesPerSector : Int)

/-- Whether a cluster is free (`entry == 0`); only meaningful when the
FAT entry is readable. -/
def fatIsFree (img : Image) (t : FatTable) (cluster : Nat) : Bool :=
  (fatNext img t cluster).getD 1 == 0

/-- The cluster loop of `fat.FS.FreeBlocks` in the `Option` monad: a
FAT read error aborts the whole operation. -/
def fatScan (img : Image) (b : Bpb) (t : FatTable) :
    List Nat → ScanSt → Option ScanSt
  | [], st => some st
  | c :: rest, st =>
    match fatNext img t c with
    | none => none
    | some entry =>
      fatScan img b t rest (scanStep (clusterToOffset b c) (entry == 0) st)

/-- `fat.FS.FreeBlocks`: scan clusters `[2, countOfClusters+2)` (the
upper bound computed in `uint32`), emitting maximal runs of zero FAT
entries; a final open run is closed at the end of the last cluster. -/
def fatFreeBlocks (img : Image) (b : Bpb) (t : FatTable) : Option (List Range) :=
  let upper := (b.countOfClusters + 2) % 2 ^ 32
  match fatScan img b t (List.range' 2 (upper - 2)) ⟨false, 0, []⟩ with
  | none => none
  | some st =>
    if st.inFree then
      some (st.ranges ++ [⟨st.rangeStart,
        clusterToOffset b ((upper + 2 ^ 32 - 1) % 2 ^ 32) +
          (b.sectorsPerCluster : Int) * (b.bytesPerSector : Int)⟩])
    else some st.ranges

/-- The superblock fields `ext.FS.FreeBlocks` depends on. -/
structure ExtSB where
  blocksCount : Nat
  firstDataBlock : Nat
  blocksPerGroup : Nat
  groupCount : Nat
  descSize : Nat
  featureIncompat : Nat
  blockSize : Nat

/-- `ext.blockGroupDescriptor`. -/
structure BlockGroupDescriptor where
  blockBitmap : Nat
  inodeBitmap : Nat
  inodeTable : Nat
  freeBlocksCount : Nat
  freeInodesCount : Nat
  usedDirsCount : Nat

/-- `FS.blockOffset`: `int64(block) * int64(blockSize)` with `int64`
overflow made explicit. -/
def extBlockOffset (fs : ExtSB) (block : Nat) : Int :=
  wrap64 (int64OfUInt64 (block % 2 ^ 64) * (fs.blockSize : Int))

/-- `FS.readBlockGroupDescriptor`. -/
def readBlockGroupDescriptor (img : Image) (fs : ExtSB) (group : Nat) :
    Option BlockGroupDescriptor :=
  let descBlock := (fs.firstDataBlock + 1) % 2 ^ 32
  let descOffset := extBlockOffset fs descBlock + (group : Int) * (fs.descSize : Int)
  match img.readFull descOffset fs.descSize with
  | none => none
  | some data =>
    let bgd : BlockGroupDescriptor :=
      ⟨leNat (slice data 0x00 0x04), leNat (slice data 0x04 0x08),
        leNat (slice data 0x08 0x0C), leNat (slice data 0x0C 0x0E),
        leNat (slice data 0x0E 0x10), leNat (slice data 0x10 0x12)⟩
    if fs.featureIncompat &&& 0x0080 ≠ 0 ∧ 64 ≤ fs.descSize then
      some { bgd with
        blockBitmap := bgd.blockBitmap + leNat (slice data 0x20 0x24) * 2 ^ 32,
        inodeBitmap := bgd.inodeBitmap + leNat (slice data 0x24 0x28) * 2 ^ 32,
        inodeTable := bgd.inodeTable + leNat (slice data 0x28 0x2C) * 2 ^ 32 }
    else some bgd

/-- `FS.readBlock`: one block of `blockSize` bytes. -/
def readBlock (img : Image) (fs : ExtSB) (block : Nat) : Option (List Nat) :=
  img.readFull (extBlockOffset fs block) fs.blockSize

/-- Free-bit test of the block bitmap: bit = 0 means free. -/
def extBitFree (bitmap : List Nat) (i : Nat) : Bool :=
  decide (bitmap.getD (i / 8) 0 &&& (1 <<< (i % 8)) = 0)

/-- Byte offset of block `firstBlock + i`
(`int64(blockNum) * blockSize`, `uint64`/`int64` wraps explicit). -/
def extGroupOffset (fs : ExtSB) (firstBlock i : Nat) : Int :=
  wrap64 (int64OfUInt64 ((firstBlock + i) % 2 ^ 64) * (fs.blockSize : Int))

/-- The bitmap scan of one block group: units `[0, blocksInGroup)`,
stopping early when the bitmap runs out of bytes (`byteIndex >=
len(bitmap)`); a final open run is closed at the end of the group
(using the untruncated `blocksInGroup`). -/
def extScanGroup (fs : ExtSB) (bitmap : List Nat)
    (firstBlock blocksInGroup : Nat) : List Range :=
  let st := scanFold (extGroupOffset fs firstBlock) (extBitFree bitmap)
    (List.range (min blocksInGroup (8 * bitmap.length))) ⟨false, 0, []⟩
  if st.inFree then
    st.ranges ++ [⟨st.rangeStart, extGroupOffset fs firstBlock blocksInGroup⟩]
  else st.ranges

/-- The group loop of `ext.FS.FreeBlocks` in the `Option` monad (any
descriptor or bitmap read error aborts). -/
def extGroupStep (img : Image) (fs : ExtSB) (g : Nat)
    (acc : Option (List Range)) : Option (List Range) :=
  match readBlockGroupDescriptor img fs g with
  | none => none
  | some bgd =>
    match readBlock img fs bgd.blockBitmap with
    | none => none
    | some bitmap =>
      let firstBlock := (fs.firstDataBlock + g * fs.blocksPerGroup) % 2 ^ 64
      let remaining := (fs.blocksCount + 2 ^ 64 - firstBlock) % 2 ^ 64
      let blocksInGroup := min fs.blocksPerGroup remaining
      match acc with
      | none => none
      | some rest2 =>
        some (extScanGroup fs bitmap firstBlock blocksInGroup ++ rest2)

def extGroups (img : Image) (fs : ExtSB) (gs : List Nat) : Option (List Range) :=
  gs.foldr (extGroupStep img fs) (some [])

/-- The merge loop of `ext.mergeRanges`. -/
def mergeGo (current : Range) : List Range → List Range
  | [] => [current]
  | r :: rest =>
    if r.Start = current.Stop then mergeGo ⟨current.Start, r.Stop⟩ rest
    else current :: mergeGo r rest

/-- `ext.mergeRanges`: combine adjacent ranges. -/
def mergeRanges (ranges : List Range) : List Range :=
  match ranges with
  | [] => []
  | [r] => [r]
  | r :: rest => mergeGo r rest

/-- `ext.FS.FreeBlocks`: per-group bitmap scans, concatenated in group
order, then merged across group boundaries. -/
def extFreeBlocks (img : Image) (fs : ExtSB) : Option (List Range) :=
  match extGroups img fs (List.range fs.groupCount) with
  | none => none
  | some ranges => some (mergeRanges ranges)

/-- `Partition.StartOffset`: `int64(StartLBA) * 512`. -/
def partStartOffset (p : Partition) : Int :=
  wrap64 (int64OfUInt64 p.StartLBA * 512)

/-- `Partition.SizeBytes`: `int64(SizeLBA) * 512`. -/
def partSizeBytes (p : Partition) : Int :=
  wrap64 (int64OfUInt64 p.SizeLBA * 512)

/-- Insertion into a list of `(start, end)` pairs sorted by start
(the sorting loop of `part.FS.FreeBlocks` produces some permutation
sorted by start; insertion sort is the deterministic representative). -/
def insertByStart (r : Int × Int) : List (Int × Int) → List (Int × Int)
  | [] => [r]
  | x :: xs => if r.1 < x.1 then r :: x :: xs else x :: insertByStart r xs

/-- The gap-walk of `part.FS.FreeBlocks` over the sorted used ranges:
emit `[currentPos, start)` for each gap, advance `currentPos` to the
partition end when it is larger. -/
def partGapStep (acc : List Range × Int) (r : Int × Int) : List Range × Int :=
  (if r.1 > acc.2 then acc.1 ++ [⟨acc.2, r.1⟩] else acc.1,
   if r.2 > acc.2 then r.2 else acc.2)

/-- `part.FS.FreeBlocks`: reserved header region, gaps between sorted
partitions, and the tail before the end limit (backup GPT trailer). -/
def partFreeBlocks (isGPT : Bool) (size : Int) (partitions : List Partition) :
    List Range :=
  let usedRanges := (partitions.map fun p =>
    (partStartOffset p, wrap64 (partStartOffset p + partSizeBytes p))).foldr
    insertByStart []
  let reservedEnd : Int := if isGPT then 34 * 512 else 512
  let st := usedRanges.foldl partGapStep ([], reservedEnd)
  if st.2 < size then
    let endLimit := if isGPT then size - 33 * 512 else size
    if st.2 < endLimit then st.1 ++ [⟨st.2, endLimit⟩] else st.1
  else st.1

/-- A GPT image with two partitions, the first malformed
(`end_lba = 0 < start_lba = 40`, so its computed size is negative):
entry 0 covers LBAs 40..0, entry 1 covers LBAs 50..59. -/
def gptBadImage : Image :=
  ⟨51200, fun off =>
    if off = 512 then 69
    else if off = 513 then 70
    else if off = 514 then 73
    else if off = 515 then 32
    else if off = 516 then 80
    else if off = 517 then 65
    else if off = 518 then 82
    else if off = 519 then 84
    else if off = 584 then 2
    else if off = 592 then 2
    else if off = 596 then 128
    else if off = 1024 then 1
    else if off = 1056 then 40
    else if off = 1152 then 1
    else if off = 1184 then 50
    else if off = 1192 then 59
    else 0⟩


/-- The partitions `parseGPT` extracts from `gptBadImage`. -/
def gptBadParts : List Partition :=
  [⟨0, [1, 0, 0, 0, 0, 0, 0, 0, 0, 0, 0, 0, 0, 0, 0, 0], 40,
      18446744073709551577, []⟩,
   ⟨1, [1, 0, 0, 0, 0, 0, 0, 0, 0, 0, 0, 0, 0, 0, 0, 0], 50, 10, []⟩]

/-- A 16-byte FAT16 area where only cluster 4's entry is non-zero. -/
def fatWitImage : Image :=
  ⟨16, fun off => if off = 8 then 1 else 0⟩

/-- A small BPB: 512-byte sectors, 1 sector per cluster, data starting
at sector 4, 4 clusters. -/
def fatWitBpb : Bpb :=
  ⟨512, 1, 1, 1, 0, 0, 1, 0, 4, 4, 4, false⟩

/-- FAT16 table at offset 0. -/
def fatWitTable : FatTable :=
  ⟨0, false, false⟩

/-- An all-zero image: every ext block-bitmap bit reads as free. -/
def extWitImage : Image :=
  ⟨4096, fun off => 0⟩

/-- A small ext superblock: 16 blocks of 1024 bytes, 8 blocks per
group, 2 groups, first data block 1. -/
def extWitSB : ExtSB :=
  ⟨16, 1, 8, 2, 32, 0, 1024⟩


/-- Invariant of the free-run scan state, relative to the offsets of
the unit indices still to be processed: accumulated ranges are
non-empty, ordered, disjoint, within `[lo, hi]`, and below every future
offset; an open run started at an offset below every future offset. -/
def StOk (offset : Nat → Int) (lo hi : Int) (idxs : List Nat) (st : ScanSt) :
    Prop :=
  st.ranges.Pairwise (fun a b => a.Stop ≤ b.Start) ∧
  (∀ r ∈ st.ranges, r.Start < r.Stop ∧ lo ≤ r.Start ∧ r.Stop ≤ hi) ∧
  (∀ i ∈ idxs, ∀ r ∈ st.ranges, r.Stop ≤ offset i) ∧
  (st.inFree = true →
    (∀ r ∈ st.ranges, r.Stop ≤ st.rangeStart) ∧
    (∀ i ∈ idxs, st.rangeStart < offset i) ∧
    lo ≤ st.rangeStart ∧ st.rangeStart < hi)

/-! ### Helper lemmas on extents and lookups -/

theorem coversb_iff {x : Int} {e : Extent} :
    coversb x e = true ↔ e.Logical ≤ x ∧ x < e.Logical + e.Length := by
  simp [coversb]

theorem find?_cover_unique {es : List Extent}
    (hp : es.Pairwise (fun a b => a.Logical + a.Length ≤ b.Logical))
    {c : Extent} {x : Int} (hc : c ∈ es) (hx : coversb x c = true) :
    es.find? (coversb x) = some c := by
  induction es with
  | nil => cases hc
  | cons a l ih =>
    rcases List.mem_cons.mp hc with rfl | hmem
    · exact List.find?_cons_of_pos _ hx
    · have hax : coversb x a = false := by
        have hdisj : a.Logical + a.Length ≤ c.Logical :=
          (List.pairwise_cons.mp hp).1 c hmem
        have hcx := coversb_iff.mp hx
        rw [Bool.eq_false_iff]
        intro hcontra
        have h2 := coversb_iff.mp hcontra
        omega
      rw [List.find?_cons_of_neg _ (by simp [hax])]
      exact ih (List.pairwise_cons.mp hp).2 hmem

theorem composeNextStart_cases (inner : List Extent) (iL : Int) :
    composeNextStart inner iL < 0 ∨ iL < composeNextStart inner iL := by
  unfold composeNextStart
  generalize hinit : (-1 : Int) = init
  have h0 : init < 0 ∨ iL < init := by omega
  clear hinit
  induction inner generalizing init with
  | nil => exact h0
  | cons a l ih =>
    simp only [List.foldl_cons]
    by_cases h : a.Logical > iL ∧ (init < 0 ∨ a.Logical < init)
    · rw [if_pos h]; exact ih _ (Or.inr h.1)
    · rw [if_neg h]; exact ih _ h0

theorem mem_composeWalk_spec {inner : List Extent}
    (hI : WFExtents inner) :
    ∀ (fuel : Nat) (oL iL rem : Int) (c : Extent),
      c ∈ composeWalk inner fuel oL iL rem →
      ∀ x, c.Logical ≤ x → x < c.Logical + c.Length →
        oL ≤ x ∧ x < oL + rem ∧
        translateAt inner (x + (iL - oL)) = some (c.Physical + (x - c.Logical)) := by
  intro fuel
  induction fuel with
  | zero => intro oL iL rem c hc; cases hc
  | succ fuel ih =>
    intro oL iL rem c hc x hx1 hx2
    rw [composeWalk] at hc
    by_cases hrem : rem ≤ 0
    · rw [if_pos hrem] at hc; cases hc
    rw [if_neg hrem] at hc
    rcases hfind : inner.find? (coversb iL) with _ | i
    · -- gap case
      rw [hfind] at hc
      simp only at hc
      by_cases hns : composeNextStart inner iL < 0
      · rw [if_pos hns] at hc; cases hc
      rw [if_neg hns] at hc
      have := ih _ _ _ _ hc x hx1 hx2
      rcases this with ⟨h1, h2, h3⟩
      have hgap : (0:Int) ≤ min (composeNextStart inner iL - iL) rem := by
        rcases composeNextStart_cases inner iL with h | h
        · omega
        · omega
      refine ⟨by omega, by omega, ?_⟩
      have : x + (iL + min (composeNextStart inner iL - iL) rem -
          (oL + min (composeNextStart inner iL - iL) rem)) = x + (iL - oL) := by ring_nf
      rw [← this]; exact h3
    · -- found case
      rw [hfind] at hc
      simp only at hc
      have hiI := coversb_iff.mp (List.find?_some hfind)
      have himem := List.mem_of_find?_eq_some hfind
      rcases List.mem_cons.mp hc with rfl | htail
      · -- c is the emitted extent
        simp only at hx1 hx2 ⊢
        have husegt : (0:Int) < min rem (i.Length - (iL - i.Logical)) := by omega
        refine ⟨hx1, by omega, ?_⟩
        have hy : coversb (x + (iL - oL)) i = true := by
          rw [coversb_iff]; constructor <;> omega
        rw [translateAt, find?_cover_unique hI.1 himem hy]
        show some (i.Physical + (x + (iL - oL) - i.Logical)) = _
        congr 1
        omega
      · have := ih _ _ _ _ htail x hx1 hx2
        rcases this with ⟨h1, h2, h3⟩
        have husegt : (0:Int) < min rem (i.Length - (iL - i.Logical)) := by omega
        refine ⟨by omega, by omega, ?_⟩
        have heq : x + (iL + min rem (i.Length - (iL - i.Logical)) -
            (oL + min rem (i.Length - (iL - i.Logical)))) = x + (iL - oL) := by ring_nf
        rw [← heq]; exact h3

theorem foldl_append_eq {α β : Type} (f : α → List β) :
    ∀ (l : List α) (init : List β),
      l.foldl (fun acc o => acc ++ f o) init = init ++ (l.map f).flatten := by
  intro l
  induction l with
  | nil => intro init; simp
  | cons a t ih => intro init; simp [ih, List.append_assoc]

theorem composeExtents_eq_flatten (outer inner : List Extent) :
    ComposeExtents outer inner =
      (outer.map fun o =>
        composeWalk inner o.Length.toNat o.Logical o.Physical o.Length).flatten := by
  unfold ComposeExtents
  rw [foldl_append_eq]
  simp

theorem mem_composeExtents_spec {outer inner : List Extent}
    (hI : WFExtents inner) {c : Extent}
    (hc : c ∈ ComposeExtents outer inner) :
    ∀ x, c.Logical ≤ x → x < c.Logical + c.Length →
      ∃ o ∈ outer, o.Logical ≤ x ∧ x < o.Logical + o.Length ∧
        translateAt inner (x + (o.Physical - o.Logical)) =
          some (c.Physical + (x - c.Logical)) := by
  rw [composeExtents_eq_flatten] at hc
  rcases List.mem_flatten.mp hc with ⟨seg, hseg, hcseg⟩
  rcases List.mem_map.mp hseg with ⟨o, ho, rfl⟩
  intro x hx1 hx2
  have := mem_composeWalk_spec hI _ _ _ _ _ hcseg x hx1 hx2
  exact ⟨o, ho, this.1, this.2.1, this.2.2⟩

theorem readAt_one (img : Image) (p : Int) :
    img.readAt p 1 =
      if p < 0 then ([], some RErr.err)
      else if p < img.size then ([img.byte p], none)
      else ([], some RErr.eof) := by
  rw [Image.readAt]
  by_cases h0 : p < 0
  · rw [if_pos h0, if_pos h0]
  rw [if_neg h0, if_neg h0]
  by_cases h1 : p < img.size
  · rw [if_pos h1]
    have hk : min 1 (img.size - p).toNat = 1 := by omega
    simp [hk, List.range_succ]
  · rw [if_neg h1]
    have hk : min 1 (img.size - p).toNat = 0 := by omega
    simp [hk]

theorem eReadLoop_one (e : ERat) (rem : Nat) (off : Int) :
    eReadLoop e 1 rem off =
      if rem = 0 ∨ e.size ≤ off then ([], none, off)
      else
        match e.findExtent off with
        | none =>
          let gapEnd := min (e.nextExtentStart off) e.size
          let zeroLen := min (gapEnd - off).toNat rem
          (List.replicate zeroLen 0 ++ [], none, off + zeroLen)
        | some ext =>
          let toRead := min (ext.Length - (off - ext.Logical)).toNat rem
          let res := e.root.readAt (ext.Physical + (off - ext.Logical)) toRead
          if res.2 = some RErr.err then (res.1, some RErr.err, off + res.1.length)
          else if res.1.length < toRead then (res.1, some RErr.eof, off + res.1.length)
          else (res.1 ++ [], none, off + res.1.length) := rfl

theorem eReadAt_one_of_translate {e : ERat} {L p : Int}
    (h0 : 0 ≤ L) (hs : L < e.size) (ht : translateAt e.extents L = some p) :
    eReadAt e 1 L = readByteResult e.root p := by
  rcases hfind : e.extents.find? (coversb L) with _ | ext
  · rw [translateAt, hfind] at ht; cases ht
  rw [translateAt, hfind] at ht
  have hp : ext.Physical + (L - ext.Logical) = p := by
    simpa using ht
  have hcov := coversb_iff.mp (List.find?_some hfind)
  have hfind' : e.findExtent L = some ext := hfind
  have hrem1 : (1:Nat) ≤ (ext.Length - (L - ext.Logical)).toNat := by omega
  rw [eReadAt, if_neg (by omega), if_neg (by omega)]
  have hplen : ¬ e.size < L + ((1:Nat):Int) := by push_cast; omega
  rw [if_neg hplen]
  have hcond : ¬((1:Nat) = 0 ∨ e.size ≤ L) := by push_neg; exact ⟨one_ne_zero, by omega⟩
  simp only [eReadLoop_one, if_neg hcond, hfind']
  have htoRead : min (ext.Length - (L - ext.Logical)).toNat 1 = 1 := by omega
  rw [htoRead, hp]
  simp only [readAt_one]
  by_cases hpneg : p < 0
  · rw [if_pos hpneg]
    simp [readByteResult, hpneg, hs.not_le]
  rw [if_neg hpneg]
  by_cases hpin : p < e.root.size
  · rw [if_pos hpin]
    simp [readByteResult, hpneg, hpin]
  · rw [if_neg hpin]
    simp [readByteResult, hpneg, hpin, hs.not_le]

theorem nextExtentStart_gt {e : ERat} {L : Int} (hs : L < e.size) :
    L < e.nextExtentStart L := by
  rw [ERat.nextExtentStart]
  rcases hf : e.extents.find? (fun x => decide (L < x.Logical)) with _ | x
  · simpa [hf] using hs
  · have hx := List.find?_some hf
    simp only [decide_eq_true_eq] at hx
    simpa [hf] using hx

theorem eReadAt_one_of_hole {e : ERat} {L : Int}
    (h0 : 0 ≤ L) (hs : L < e.size) (ht : e.extents.find? (coversb L) = none) :
    eReadAt e 1 L = ([0], none) := by
  have hfind' : e.findExtent L = none := ht
  rw [eReadAt, if_neg (by omega), if_neg (by omega)]
  have hplen : ¬ e.size < L + ((1:Nat):Int) := by push_cast; omega
  rw [if_neg hplen]
  have hcond : ¬((1:Nat) = 0 ∨ e.size ≤ L) := by push_neg; exact ⟨one_ne_zero, by omega⟩
  simp only [eReadLoop_one, if_neg hcond, hfind']
  have hgap : min (min (e.nextExtentStart L) e.size - L).toNat 1 = 1 := by
    have := nextExtentStart_gt hs
    omega
  simp [hgap]

/-- C1.  Extent compose correctness: for a logical offset `L` covered by
`ComposeExtents outer inner`, reading the byte at `L` through an
`ExtentReaderAt` over the composed extents equals translating `L`
through the outer extents to the inner-logical offset `m` and reading
`m` through an `ExtentReaderAt` over the inner extents; offsets `L` in
holes of the composed mapping read as a zero byte. -/
theorem compose_read_correct (base : Image) (outer inner : List Extent)
    (sc si L : Int) (hO : WFExtents outer) (hI : WFExtents inner)
    (hL0 : 0 ≤ L) (hLsc : L < sc) :
    (∀ p, translateAt (ComposeExtents outer inner) L = some p →
      ∃ m, translateAt outer L = some m ∧ 0 ≤ m ∧
        (m < si →
          eReadAt ⟨base, ComposeExtents outer inner, sc⟩ 1 L =
            eReadAt ⟨base, inner, si⟩ 1 m)) ∧
    (translateAt (ComposeExtents outer inner) L = none →
      eReadAt ⟨base, ComposeExtents outer inner, sc⟩ 1 L = ([0], none)) := by
  constructor
  · intro p ht
    rcases hfind : (ComposeExtents outer inner).find? (coversb L) with _ | c
    · rw [translateAt, hfind] at ht; cases ht
    have hp : c.Physical + (L - c.Logical) = p := by
      rw [translateAt, hfind] at ht; simpa using ht
    have hcv := coversb_iff.mp (List.find?_some hfind)
    have hcmem := List.mem_of_find?_eq_some hfind
    rcases mem_composeExtents_spec hI hcmem L hcv.1 hcv.2 with
      ⟨o, ho, hoL, hoR, htrans⟩
    refine ⟨o.Physical + (L - o.Logical), ?_, ?_, ?_⟩
    · rw [translateAt,
        find?_cover_unique hO.1 ho (coversb_iff.mpr ⟨hoL, hoR⟩)]
      rfl
    · have := (hO.2 o ho).2.2
      omega
    · intro hmsi
      have hm0 : 0 ≤ o.Physical + (L - o.Logical) := by
        have := (hO.2 o ho).2.2; omega
      have hL : eReadAt ⟨base, ComposeExtents outer inner, sc⟩ 1 L =
          readByteResult base p :=
        eReadAt_one_of_translate hL0 hLsc ht
      have htrans' : translateAt inner (o.Physical + (L - o.Logical)) = some p := by
        have heq : o.Physical + (L - o.Logical) = L + (o.Physical - o.Logical) := by ring
        rw [heq, htrans, hp]
      have hR : eReadAt ⟨base, inner, si⟩ 1 (o.Physical + (L - o.Logical)) =
          readByteResult base p :=
        eReadAt_one_of_translate hm0 hmsi htrans'
      rw [hL, hR]
  · intro ht
    rcases hfind : (ComposeExtents outer inner).find? (coversb L) with _ | c
    · exact eReadAt_one_of_hole hL0 hLsc hfind
    · rw [translateAt, hfind] at ht; cases ht

/-- Witness for C1 at a concrete instance: the first compose test vector
of the repository, read at logical offset 10. -/
theorem compose_read_correct_witness :
    WFExtents [⟨0, 1000, 100⟩] ∧ WFExtents [⟨1000, 5000, 100⟩] ∧
    (0 : Int) ≤ 10 ∧ (10 : Int) < 100 ∧
    ((∀ p, translateAt
        (ComposeExtents [⟨0, 1000, 100⟩] [⟨1000, 5000, 100⟩]) 10 = some p →
      ∃ m, translateAt [⟨0, 1000, 100⟩] 10 = some m ∧ 0 ≤ m ∧
        (m < 2000 →
          eReadAt ⟨⟨6000, fun i => i.toNat % 251⟩,
              ComposeExtents [⟨0, 1000, 100⟩] [⟨1000, 5000, 100⟩], 100⟩ 1 10 =
            eReadAt ⟨⟨6000, fun i => i.toNat % 251⟩, [⟨1000, 5000, 100⟩], 2000⟩ 1 m)) ∧
    (translateAt (ComposeExtents [⟨0, 1000, 100⟩] [⟨1000, 5000, 100⟩]) 10 = none →
      eReadAt ⟨⟨6000, fun i => i.toNat % 251⟩,
          ComposeExtents [⟨0, 1000, 100⟩] [⟨1000, 5000, 100⟩], 100⟩ 1 10 =
        ([0], none))) :=
  ⟨by decide, by decide, by norm_num, by norm_num,
    compose_read_correct ⟨6000, fun i => i.toNat % 251⟩ _ _ 100 2000 10
      (by decide) (by decide) (by norm_num) (by norm_num)⟩

/-! ### C10: compose preserves well-formedness -/

theorem composeWalk_bounds {inner : List Extent} :
    ∀ (fuel : Nat) (oL iL rem : Int) (c : Extent),
      c ∈ composeWalk inner fuel oL iL rem →
      oL ≤ c.Logical ∧ c.Logical + c.Length ≤ oL + rem := by
  intro fuel
  induction fuel with
  | zero => intro _ _ _ c hc; cases hc
  | succ fuel ih =>
    intro oL iL rem c hc
    rw [composeWalk] at hc
    by_cases hrem : rem ≤ 0
    · rw [if_pos hrem] at hc; cases hc
    rw [if_neg hrem] at hc
    rcases hfind : inner.find? (coversb iL) with _ | i
    · rw [hfind] at hc
      simp only at hc
      by_cases hns : composeNextStart inner iL < 0
      · rw [if_pos hns] at hc; cases hc
      rw [if_neg hns] at hc
      have hgap : (0:Int) ≤ min (composeNextStart inner iL - iL) rem := by
        rcases composeNextStart_cases inner iL with h | h <;> omega
      have := ih _ _ _ _ hc
      constructor <;> omega
    · rw [hfind] at hc
      simp only at hc
      have hiI := coversb_iff.mp (List.find?_some hfind)
      have hu : (0:Int) < min rem (i.Length - (iL - i.Logical)) := by omega
      rcases List.mem_cons.mp hc with rfl | htail
      · simp only
        omega
      · have := ih _ _ _ _ htail
        constructor <;> omega

theorem composeWalk_pos {inner : List Extent} (hI : WFExtents inner) :
    ∀ (fuel : Nat) (oL iL rem : Int) (c : Extent),
      c ∈ composeWalk inner fuel oL iL rem → 0 ≤ oL →
      0 < c.Length ∧ 0 ≤ c.Logical ∧ 0 ≤ c.Physical := by
  intro fuel
  induction fuel with
  | zero => intro _ _ _ c hc _; cases hc
  | succ fuel ih =>
    intro oL iL rem c hc hoL
    rw [composeWalk] at hc
    by_cases hrem : rem ≤ 0
    · rw [if_pos hrem] at hc; cases hc
    rw [if_neg hrem] at hc
    rcases hfind : inner.find? (coversb iL) with _ | i
    · rw [hfind] at hc
      simp only at hc
      by_cases hns : composeNextStart inner iL < 0
      · rw [if_pos hns] at hc; cases hc
      rw [if_neg hns] at hc
      have hgap : (0:Int) ≤ min (composeNextStart inner iL - iL) rem := by
        rcases composeNextStart_cases inner iL with h | h <;> omega
      exact ih _ _ _ _ hc (by omega)
    · rw [hfind] at hc
      simp only at hc
      have hiI := coversb_iff.mp (List.find?_some hfind)
      have himem := List.mem_of_find?_eq_some hfind
      have hu : (0:Int) < min rem (i.Length - (iL - i.Logical)) := by omega
      rcases List.mem_cons.mp hc with rfl | htail
      · have hiP := (hI.2 i himem).2.2
        dsimp only
        refine ⟨by omega, by omega, by omega⟩
      · exact ih _ _ _ _ htail (by omega)

theorem composeWalk_pairwise {inner : List Extent} :
    ∀ (fuel : Nat) (oL iL rem : Int),
      (composeWalk inner fuel oL iL rem).Pairwise
        (fun a b => a.Logical + a.Length ≤ b.Logical) := by
  intro fuel
  induction fuel with
  | zero => intro _ _ _; exact List.Pairwise.nil
  | succ fuel ih =>
    intro oL iL rem
    rw [composeWalk]
    by_cases hrem : rem ≤ 0
    · rw [if_pos hrem]; exact List.Pairwise.nil
    rw [if_neg hrem]
    rcases hfind : inner.find? (coversb iL) with _ | i
    · simp only
      by_cases hns : composeNextStart inner iL < 0
      · rw [if_pos hns]; exact List.Pairwise.nil
      rw [if_neg hns]
      exact ih _ _ _
    · simp only
      refine List.pairwise_cons.mpr ⟨?_, ih _ _ _⟩
      intro c hc
      have := composeWalk_bounds _ _ _ _ _ hc
      simp only
      omega

theorem composeWalk_sum {inner : List Extent} :
    ∀ (fuel : Nat) (oL iL rem : Int),
      totalLength (composeWalk inner fuel oL iL rem) ≤ max rem 0 := by
  intro fuel
  induction fuel with
  | zero =>
    intro _ _ rem
    simp only [composeWalk, totalLength, List.map_nil, List.sum_nil]
    omega
  | succ fuel ih =>
    intro oL iL rem
    rw [composeWalk]
    by_cases hrem : rem ≤ 0
    · rw [if_pos hrem]
      simp only [totalLength, List.map_nil, List.sum_nil]
      omega
    rw [if_neg hrem]
    rcases hfind : inner.find? (coversb iL) with _ | i
    · simp only
      by_cases hns : composeNextStart inner iL < 0
      · rw [if_pos hns]
        simp only [totalLength, List.map_nil, List.sum_nil]
        omega
      rw [if_neg hns]
      have hgap : (0:Int) ≤ min (composeNextStart inner iL - iL) rem := by
        rcases composeNextStart_cases inner iL with h | h <;> omega
      have := ih oL iL (rem - min (composeNextStart inner iL - iL) rem)
      calc totalLength (composeWalk inner fuel
              (oL + min (composeNextStart inner iL - iL) rem)
              (iL + min (composeNextStart inner iL - iL) rem)
              (rem - min (composeNextStart inner iL - iL) rem))
          ≤ max (rem - min (composeNextStart inner iL - iL) rem) 0 := ih _ _ _
        _ ≤ max rem 0 := by omega
    · simp only
      have hiI := coversb_iff.mp (List.find?_some hfind)
      have hu : (0:Int) < min rem (i.Length - (iL - i.Logical)) := by omega
      have hrec := ih (oL + min rem (i.Length - (iL - i.Logical)))
        (iL + min rem (i.Length - (iL - i.Logical)))
        (rem - min rem (i.Length - (iL - i.Logical)))
      rw [totalLength] at hrec ⊢
      simp only [List.map_cons, List.sum_cons]
      omega

theorem totalLength_flatten :
    ∀ (L : List (List Extent)), totalLength L.flatten = (L.map totalLength).sum := by
  intro L
  induction L with
  | nil => rfl
  | cons l t ih =>
    simp only [List.flatten_cons, totalLength, List.map_append, List.sum_append,
      List.map_cons, List.sum_cons]
    rw [totalLength] at ih
    omega

/-- C10.  `ComposeExtents` preserves well-formedness: given sorted,
non-overlapping outer and inner extent lists with positive lengths, the
composed list is sorted, non-overlapping, has positive lengths, and its
total length does not exceed the total length of the outer list. -/
theorem compose_preserves_wellformed {outer inner : List Extent}
    (hO : WFExtents outer) (hI : WFExtents inner) :
    WFExtents (ComposeExtents outer inner) ∧
    totalLength (ComposeExtents outer inner) ≤ totalLength outer := by
  rw [composeExtents_eq_flatten]
  refine ⟨⟨?_, ?_⟩, ?_⟩
  · rw [List.pairwise_flatten]
    constructor
    · intro s hs
      rcases List.mem_map.mp hs with ⟨o, _, rfl⟩
      exact composeWalk_pairwise _ _ _ _
    · rw [List.pairwise_map]
      refine hO.1.imp_of_mem ?_
      intro o o' hmo hmo' hle x hx y hy
      have hxb := composeWalk_bounds _ _ _ _ _ hx
      have hyb := composeWalk_bounds _ _ _ _ _ hy
      omega
  · intro c hc
    rcases List.mem_flatten.mp hc with ⟨s, hs, hcs⟩
    rcases List.mem_map.mp hs with ⟨o, ho, rfl⟩
    exact composeWalk_pos hI _ _ _ _ _ hcs (hO.2 o ho).2.1
  · rw [totalLength_flatten, List.map_map]
    have hbound : ∀ o ∈ outer,
        (totalLength ∘ fun o =>
          composeWalk inner o.Length.toNat o.Logical o.Physical o.Length) o ≤
          o.Length := by
      intro o ho
      have h1 := @composeWalk_sum inner
        o.Length.toNat o.Logical o.Physical o.Length
      have h2 := (hO.2 o ho).1
      simp only [Function.comp]
      omega
    exact le_of_le_of_eq (List.sum_le_sum hbound) rfl

/-- Witness for C10 at the repository's two-level compose test vector. -/
theorem compose_preserves_wellformed_witness :
    WFExtents [⟨0, 50, 100⟩] ∧
    WFExtents [⟨0, 1000, 100⟩, ⟨100, 2000, 100⟩] ∧
    (WFExtents (ComposeExtents [⟨0, 50, 100⟩]
        [⟨0, 1000, 100⟩, ⟨100, 2000, 100⟩]) ∧
      totalLength (ComposeExtents [⟨0, 50, 100⟩]
        [⟨0, 1000, 100⟩, ⟨100, 2000, 100⟩]) ≤ totalLength [⟨0, 50, 100⟩]) :=
  ⟨by decide, by decide, compose_preserves_wellformed (by decide) (by decide)⟩

/-! ### C2: flattening invariant of NewExtentReaderAt -/

theorem buildChain_foldl_root (b : Image) (ls : List (List Extent × Int)) :
    ∀ acc : ExtentReaderAt, acc.r = GoReaderAt.base b →
      (ls.foldl (fun acc l => NewExtentReaderAt acc.toReaderAt l.1 l.2) acc).r =
        GoReaderAt.base b := by
  induction ls with
  | nil => intro acc h; exact h
  | cons l t ih =>
    intro acc h
    apply ih
    simp [NewExtentReaderAt, ExtentReaderAt.toReaderAt, h]

/-- C2.  Flattening invariant: a reader built by `NewExtentReaderAt` on
top of another `ExtentReaderAt` backs directly onto the parent's backing
reader, with extents `ComposeExtents (sortExtents new) parent.extents`;
transitively, any chain of constructions over a base image keeps the
original image as its backing reader. -/
theorem extent_reader_flattening :
    (∀ (b : Image) (l0 : List Extent × Int) (ls : List (List Extent × Int)),
      (buildChain b l0 ls).r = GoReaderAt.base b) ∧
    (∀ (p : ExtentReaderAt) (exts : List Extent) (sz : Int),
      (NewExtentReaderAt p.toReaderAt exts sz).r = p.r ∧
      (NewExtentReaderAt p.toReaderAt exts sz).extents =
        ComposeExtents (sortExtents exts) p.extents) := by
  constructor
  · intro b l0 ls
    apply buildChain_foldl_root
    simp [NewExtentReaderAt]
  · intro p exts sz
    exact ⟨rfl, rfl⟩

/-! ### XTS lemmas and claims -/

theorem except_bind_ok {ε α β : Type} (a : α) (f : α → Except ε β) :
    (Except.ok a : Except ε α) >>= f = f a := rfl

theorem tweakBytes_length (t : Nat) : (tweakBytes t).length = 16 := by
  simp [tweakBytes]

theorem xorBlock_length (b x : List Nat) :
    (xorBlock b x).length = min b.length x.length := by
  simp [xorBlock]

theorem xorBlock_xorBlock : ∀ (b x : List Nat), b.length = x.length →
    xorBlock (xorBlock b x) x = b := by
  intro b
  induction b with
  | nil => intro x _; cases x <;> rfl
  | cons a t ih =>
    intro x hx
    rcases x with _ | ⟨y, ys⟩
    · cases hx
    · have hlen : t.length = ys.length := by simpa using hx
      show (a ^^^ y ^^^ y) :: xorBlock (xorBlock t ys) ys = a :: t
      rw [Nat.xor_cancel_right, ih ys hlen]

theorem gfMulAux_length : ∀ (bs : List Nat) (c : Nat),
    (gfMulAux bs c).1.length = bs.length := by
  intro bs
  induction bs with
  | nil => intro c; rfl
  | cons b t ih => intro c; simp [gfMulAux, ih]

theorem gfMul_length (b : List Nat) : (gfMul b).length = b.length := by
  rw [gfMul]
  have h := gfMulAux_length b 0
  by_cases hc : (gfMulAux b 0).2 ≠ 0
  · rw [if_pos hc]
    rcases hr : (gfMulAux b 0).1 with _ | ⟨h0, t0⟩ <;> rw [hr] at h <;> simpa using h
  · rw [if_neg hc]; exact h

theorem processBlocksGo_length (f : List Nat → List Nat)
    (hf : ∀ b, b.length = 16 → (f b).length = 16) :
    ∀ (fuel : Nat) (T data : List Nat), T.length = 16 →
      (processBlocksGo f fuel T data).length = data.length := by
  intro fuel
  induction fuel with
  | zero => intro T data _; rfl
  | succ n ih =>
    intro T data hT
    rw [processBlocksGo]
    by_cases h16 : data.length < 16
    · rw [if_pos h16]
    · rw [if_neg h16]
      have hxin : (xorBlock (data.take 16) T).length = 16 := by
        rw [xorBlock_length, List.length_take, hT]; omega
      have hstep : (xorBlock (f (xorBlock (data.take 16) T)) T).length = 16 := by
        rw [xorBlock_length, hf _ hxin, hT]
        exact min_self 16
      rw [List.length_append, hstep,
        ih (gfMul T) (data.drop 16) (by rw [gfMul_length, hT])]
      simp only [List.length_drop]
      omega

theorem processBlocks_length (f : List Nat → List Nat)
    (hf : ∀ b, b.length = 16 → (f b).length = 16)
    (T data : List Nat) (hT : T.length = 16) :
    (processBlocks f T data).length = data.length :=
  processBlocksGo_length f hf data.length T data hT

theorem processBlocksGo_roundtrip (k : BlockCipher)
    (hkl : ∀ b, b.length = 16 → (k.enc b).length = 16)
    (hki : ∀ b, b.length = 16 → k.dec (k.enc b) = b) :
    ∀ (fuel : Nat) (data : List Nat), data.length ≤ fuel → ∀ T, T.length = 16 →
      processBlocksGo k.dec fuel T (processBlocksGo k.enc fuel T data) = data := by
  intro fuel
  induction fuel with
  | zero => intro data hd T _; rfl
  | succ n ih =>
    intro data hd T hT
    by_cases h16 : data.length < 16
    · have hencEq : processBlocksGo k.enc (n + 1) T data = data := by
        rw [processBlocksGo, if_pos h16]
      rw [hencEq, processBlocksGo, if_pos h16]
    have hxin : (xorBlock (data.take 16) T).length = 16 := by
      rw [xorBlock_length, List.length_take, hT]; omega
    have hstep : (xorBlock (k.enc (xorBlock (data.take 16) T)) T).length = 16 := by
      rw [xorBlock_length, hkl _ hxin, hT]
      exact min_self 16
    have hencEq : processBlocksGo k.enc (n + 1) T data =
        xorBlock (k.enc (xorBlock (data.take 16) T)) T ++
          processBlocksGo k.enc n (gfMul T) (data.drop 16) := by
      rw [processBlocksGo, if_neg h16]
    rw [hencEq]
    rw [processBlocksGo, if_neg (by rw [List.length_append, hstep]; omega)]
    have htake : (xorBlock (k.enc (xorBlock (data.take 16) T)) T ++
        processBlocksGo k.enc n (gfMul T) (data.drop 16)).take 16 =
        xorBlock (k.enc (xorBlock (data.take 16) T)) T :=
      List.take_left' hstep
    have hdrop : (xorBlock (k.enc (xorBlock (data.take 16) T)) T ++
        processBlocksGo k.enc n (gfMul T) (data.drop 16)).drop 16 =
        processBlocksGo k.enc n (gfMul T) (data.drop 16) :=
      List.drop_left' hstep
    rw [htake, hdrop]
    have hhead : xorBlock (k.dec (xorBlock
        (xorBlock (k.enc (xorBlock (data.take 16) T)) T) T)) T = data.take 16 := by
      rw [xorBlock_xorBlock _ _ (by rw [hkl _ hxin, hT]),
        hki _ hxin, xorBlock_xorBlock _ _ (by rw [List.length_take, hT]; omega)]
    rw [hhead, ih (data.drop 16) (by simp; omega) (gfMul T) (by rw [gfMul_length, hT])]
    exact List.take_append_drop 16 data

theorem processBlocks_roundtrip (k : BlockCipher)
    (hkl : ∀ b, b.length = 16 → (k.enc b).length = 16)
    (hki : ∀ b, b.length = 16 → k.dec (k.enc b) = b)
    (T data : List Nat) (hT : T.length = 16) :
    processBlocks k.dec T (processBlocks k.enc T data) = data := by
  rw [processBlocks, processBlocks,
    processBlocksGo_length k.enc hkl data.length T data hT]
  exact processBlocksGo_roundtrip k hkl hki data.length data le_rfl T hT

theorem xtsSectors_roundtrip (c : Cipher)
    (hk1l : ∀ b, b.length = 16 → (c.k1.enc b).length = 16)
    (hk1i : ∀ b, b.length = 16 → c.k1.dec (c.k1.enc b) = b)
    (hk2l : ∀ b, b.length = 16 → (c.k2.enc b).length = 16)
    (ssN : Nat) (hss : (ssN : Int) = c.sectorSize) :
    ∀ (n start : Nat) (data : List Nat), data.length = n * ssN →
      ∃ e, xtsSectors (fun d s => c.EncryptSector d s) ssN start data n = .ok e ∧
        e.length = n * ssN ∧
        xtsSectors (fun d s => c.DecryptSector d s) ssN start e n = .ok data := by
  intro n
  induction n with
  | zero =>
    intro start data hd
    have : data = [] := List.eq_nil_of_length_eq_zero (by simpa using hd)
    subst this
    exact ⟨[], rfl, by simp, rfl⟩
  | succ n ih =>
    intro start data hd
    have hTlen : ∀ tw : Nat, (c.k2.enc (tweakBytes tw)).length = 16 :=
      fun tw => hk2l _ (tweakBytes_length tw)
    have htklen : (data.take ssN).length = ssN := by
      rw [List.length_take]
      have : ssN ≤ data.length := by rw [hd]; ring_nf; omega
      omega
    have henc1 : c.EncryptSector (data.take ssN) start =
        .ok (c.process (data.take ssN) ((start + c.tweakOffset) % 2 ^ 64) false) := by
      rw [Cipher.EncryptSector, if_neg (by rw [htklen, hss]; simp)]
    have henclen : (c.process (data.take ssN)
        ((start + c.tweakOffset) % 2 ^ 64) false).length = ssN := by
      show (processBlocks c.k1.enc
        (c.k2.enc (tweakBytes ((start + c.tweakOffset) % 2 ^ 64)))
        (data.take ssN)).length = ssN
      rw [processBlocks_length c.k1.enc hk1l _ _ (hTlen _), htklen]
    rcases ih ((start + 1) % 2 ^ 64) (data.drop ssN)
        (by rw [List.length_drop, hd]; ring_nf; omega) with ⟨e2, he2, hl2, hd2⟩
    refine ⟨c.process (data.take ssN) ((start + c.tweakOffset) % 2 ^ 64) false ++ e2,
      ?_, ?_, ?_⟩
    · rw [xtsSectors]
      rw [henc1, except_bind_ok, he2, except_bind_ok]
    · rw [List.length_append, henclen, hl2]; ring
    · rw [xtsSectors]
      have htk : (c.process (data.take ssN) ((start + c.tweakOffset) % 2 ^ 64) false
          ++ e2).take ssN =
          c.process (data.take ssN) ((start + c.tweakOffset) % 2 ^ 64) false :=
        List.take_left' henclen
      have hdp : (c.process (data.take ssN) ((start + c.tweakOffset) % 2 ^ 64) false
          ++ e2).drop ssN = e2 :=
        List.drop_left' henclen
      rw [htk]
      have hdec1 : c.DecryptSector
          (c.process (data.take ssN) ((start + c.tweakOffset) % 2 ^ 64) false)
          start = .ok (data.take ssN) := by
        rw [Cipher.DecryptSector, if_neg (by rw [henclen, hss]; simp)]
        congr 1
        show processBlocks c.k1.dec
          (c.k2.enc (tweakBytes ((start + c.tweakOffset) % 2 ^ 64)))
          (processBlocks c.k1.enc
            (c.k2.enc (tweakBytes ((start + c.tweakOffset) % 2 ^ 64)))
            (data.take ssN)) = data.take ssN
        exact processBlocks_roundtrip c.k1 hk1l hk1i _ _ (hTlen _)
      rw [hdec1, except_bind_ok, hdp, hd2, except_bind_ok,
        List.take_append_drop]

/-- C3.  XTS round trip: for every valid key (32, 48 or 64 bytes, via
`xtsNew` with an AES family satisfying the `cipher.Block` contract),
sector size 32 or 512, tweak offset, sector index and plaintext whose
length is a multiple of the sector size, decrypting the encryption
returns the plaintext. -/
theorem xts_roundtrip (fam : List Nat → BlockCipher)
    (hfaml : ∀ k b, b.length = 16 → ((fam k).enc b).length = 16)
    (hfami : ∀ k b, b.length = 16 → (fam k).dec ((fam k).enc b) = b)
    (key : List Nat)
    (hkey : key.length = 32 ∨ key.length = 48 ∨ key.length = 64)
    (ss : Int) (hss : ss = 32 ∨ ss = 512) (toff s : Nat) (data : List Nat)
    (hdata : (data.length : Int) % ss = 0) (c : Cipher)
    (hc : xtsNew fam key ss toff = .ok c) :
    (c.Encrypt data s).bind (fun e => c.Decrypt e s) = .ok data := by
  have hck : c = ⟨fam (key.take (key.length / 2)), fam (key.drop (key.length / 2)),
      ss, toff⟩ := by
    rw [xtsNew] at hc
    rw [if_neg (by omega), if_neg (by omega)] at hc
    cases hc
    rfl
  have hcss : c.sectorSize = ss := by rw [hck]
  have hlen : data.length = ((data.length : Int) / ss).toNat * ss.toNat := by
    rcases hss with rfl | rfl
    · rw [show ((32:Int)).toNat = 32 from rfl]; omega
    · rw [show ((512:Int)).toNat = 512 from rfl]; omega
  rcases xtsSectors_roundtrip c
      (by rw [hck]; exact hfaml _)
      (by rw [hck]; exact hfami _)
      (by rw [hck]; exact hfaml _) ss.toNat
      (by rw [hcss]; rcases hss with rfl | rfl <;> norm_num)
      ((data.length : Int) / ss).toNat s data hlen with ⟨e, he, hel, hde⟩
  rw [Cipher.Encrypt, if_neg (by rw [hcss]; simpa using hdata), hcss, he]
  show c.Decrypt e s = Except.ok data
  rw [Cipher.Decrypt, if_neg ?hmod, hcss]
  case hmod =>
    rw [hcss]
    simp only [ne_eq, Decidable.not_not]
    rcases hss with rfl | rfl
    · rw [show ((32:Int)).toNat = 32 from rfl] at hel; omega
    · rw [show ((512:Int)).toNat = 512 from rfl] at hel; omega
  have hq : ((e.length : Int) / ss).toNat = ((data.length : Int) / ss).toNat := by
    rcases hss with rfl | rfl
    · rw [show ((32:Int)).toNat = 32 from rfl] at hel; omega
    · rw [show ((512:Int)).toNat = 512 from rfl] at hel; omega
  rw [hq, hde]

/-- Witness for C3: the identity AES family, a 32-byte key, sector size
32, tweak offset 5, sector 3, and a 32-byte plaintext. -/
theorem xts_roundtrip_witness :
    (∀ k b : List Nat, b.length = 16 →
      (((fun _ => idBlockCipher) k : BlockCipher).enc b).length = 16) ∧
    (∀ k b : List Nat, b.length = 16 →
      (((fun _ => idBlockCipher) k : BlockCipher)).dec
        ((((fun _ => idBlockCipher) k : BlockCipher)).enc b) = b) ∧
    ((List.replicate 32 0 : List Nat).length = 32 ∨
      (List.replicate 32 0 : List Nat).length = 48 ∨
      (List.replicate 32 0 : List Nat).length = 64) ∧
    ((32 : Int) = 32 ∨ (32 : Int) = 512) ∧
    (((List.replicate 32 7 : List Nat).length : Int) % 32 = 0) ∧
    (xtsNew (fun _ => idBlockCipher) (List.replicate 32 0) 32 5 =
      .ok ⟨idBlockCipher, idBlockCipher, 32, 5⟩) ∧
    ((Cipher.Encrypt ⟨idBlockCipher, idBlockCipher, 32, 5⟩
        (List.replicate 32 7) 3).bind
      (fun e => Cipher.Decrypt ⟨idBlockCipher, idBlockCipher, 32, 5⟩ e 3) =
      .ok (List.replicate 32 7)) :=
  ⟨fun _ _ h => h, fun _ _ _ => rfl, Or.inl (by simp), Or.inl rfl, by simp,
    rfl,
    xts_roundtrip (fun _ => idBlockCipher) (fun _ _ h => h) (fun _ _ _ => rfl)
      (List.replicate 32 0) (Or.inl (by simp)) 32 (Or.inl rfl) 5 3
      (List.replicate 32 7) (by simp) _ rfl⟩

set_option maxRecDepth 100000 in
/-- C4 (counterexample).  The claim says every backing read whose byte
count is not a multiple of the sector size yields an error; but with
sector size 512, a logical size of 1024 and a backing image of only 600
bytes, `ReadAt` of 1024 bytes at offset 0 gets a 600-byte backing read
(600 % 512 ≠ 0) and returns the first sector's 512 bytes with `nil`
error, silently dropping the 88-byte partial sector. -/
theorem xts_readat_partial_dropped :
    XtsReaderAt.ReadAt
      ⟨⟨600, fun _ => 0⟩, ⟨idBlockCipher, idBlockCipher, 512, 0⟩, 1024⟩ 1024 0 =
      (List.replicate 512 0, none) ∧
    (XtsReaderAt.alignedRead
      ⟨⟨600, fun _ => 0⟩, ⟨idBlockCipher, idBlockCipher, 512, 0⟩, 1024⟩
      1024 0).1.length = 600 ∧
    600 % 512 ≠ 0 := by
  refine ⟨?_, by decide, by decide⟩
  decide

/-- C4 (amended).  `xts.ReaderAt.ReadAt` raises a partial-sector error
exactly when the backing read delivers more than zero but fewer than
`sectorSize` bytes; when at least one complete sector is delivered, the
partial tail is silently dropped and the result carries no
partial-sector error. -/
theorem xts_readat_incomplete_sector_boundary (x : XtsReaderAt)
    (plen : Nat) (off : Int) (h0 : 0 ≤ off) (hoff : off < x.size)
    (hss : 16 ≤ x.cipher.sectorSize)
    (hre : (x.alignedRead plen off).2 ≠ some RErr.err) :
    (0 < (x.alignedRead plen off).1.length ∧
        (x.alignedRead plen off).1.length < x.cipher.sectorSize.toNat →
      x.ReadAt plen off = ([], some XtsErr.incompleteSector)) ∧
    (x.cipher.sectorSize.toNat ≤ (x.alignedRead plen off).1.length →
      (x.ReadAt plen off).2 ≠ some XtsErr.incompleteSector) := by
  rw [XtsReaderAt.ReadAt, if_neg (by omega), if_neg (by omega)]
  simp only
  rw [if_neg hre]
  constructor
  · rintro ⟨hpos, hlt⟩
    have hcs : (x.alignedRead plen off).1.length / x.cipher.sectorSize.toNat = 0 :=
      Nat.div_eq_of_lt hlt
    rw [hcs]
    rw [if_pos rfl, if_pos hpos]
  · intro hge
    have hssN : 0 < x.cipher.sectorSize.toNat := by omega
    have hcs : (x.alignedRead plen off).1.length / x.cipher.sectorSize.toNat ≠ 0 := by
      intro hz
      rw [Nat.div_eq_zero_iff hssN] at hz
      omega
    rw [if_neg hcs]
    rcases hdec : x.cipher.Decrypt
        ((x.alignedRead plen off).1.take
          ((x.alignedRead plen off).1.length / x.cipher.sectorSize.toNat *
            x.cipher.sectorSize.toNat))
        (x.startSector off).toNat with err | dec
    · simp
    · simp only
      split <;> simp

/-- Witness for the amended C4: an image of 100 bytes under a logical
size of 1024 with 512-byte sectors delivers a 100-byte backing read,
and `ReadAt` raises the partial-sector error. -/
theorem xts_readat_incomplete_sector_boundary_witness :
    ((0:Int) ≤ 0 ∧ (0:Int) < 1024 ∧
      (16:Int) ≤ (512:Int) ∧
      (XtsReaderAt.alignedRead
        ⟨⟨100, fun _ => 0⟩, ⟨idBlockCipher, idBlockCipher, 512, 0⟩, 1024⟩
        1024 0).2 ≠ some RErr.err) ∧
    ((0 < (XtsReaderAt.alignedRead
          ⟨⟨100, fun _ => 0⟩, ⟨idBlockCipher, idBlockCipher, 512, 0⟩, 1024⟩
          1024 0).1.length ∧
        (XtsReaderAt.alignedRead
          ⟨⟨100, fun _ => 0⟩, ⟨idBlockCipher, idBlockCipher, 512, 0⟩, 1024⟩
          1024 0).1.length <
          ((512:Int)).toNat →
      XtsReaderAt.ReadAt
        ⟨⟨100, fun _ => 0⟩, ⟨idBlockCipher, idBlockCipher, 512, 0⟩, 1024⟩
        1024 0 = ([], some XtsErr.incompleteSector)) ∧
    (((512:Int)).toNat ≤ (XtsReaderAt.alignedRead
          ⟨⟨100, fun _ => 0⟩, ⟨idBlockCipher, idBlockCipher, 512, 0⟩, 1024⟩
          1024 0).1.length →
      (XtsReaderAt.ReadAt
        ⟨⟨100, fun _ => 0⟩, ⟨idBlockCipher, idBlockCipher, 512, 0⟩, 1024⟩
        1024 0).2 ≠ some XtsErr.incompleteSector)) :=
  ⟨⟨by norm_num, by norm_num, by norm_num, by decide⟩,
    xts_readat_incomplete_sector_boundary
      ⟨⟨100, fun _ => 0⟩, ⟨idBlockCipher, idBlockCipher, 512, 0⟩, 1024⟩
      1024 0 (by norm_num) (by norm_num) (by norm_num) (by decide)⟩

/-- C5 (counterexample).  `xts.New` accepts sector size 17 with a valid
32-byte key, although 17 is not a multiple of 16 — the claim's
"multiple of 16" requirement is not checked by the code. -/
theorem xtsNew_accepts_nonmultiple_sector :
    (xtsNew (fun _ => idBlockCipher) (List.replicate 32 0) 17 0).toOption.isSome
      = true ∧ (17 : Int) % 16 ≠ 0 :=
  ⟨rfl, by decide⟩

/-- C5 (amended).  `xts.New` succeeds exactly when the key length is
32, 48 or 64 bytes and the sector size is at least 16; it does not
require the sector size to be a multiple of 16. -/
theorem xtsNew_ok_iff (fam : List Nat → BlockCipher) (key : List Nat)
    (sectorSize : Int) (tweakOffset : Nat) :
    (xtsNew fam key sectorSize tweakOffset).toOption.isSome = true ↔
      ((key.length = 32 ∨ key.length = 48 ∨ key.length = 64) ∧
        16 ≤ sectorSize) := by
  rw [xtsNew]
  by_cases hk : key.length ≠ 32 ∧ key.length ≠ 48 ∧ key.length ≠ 64
  · rw [if_pos hk]
    simp [Except.toOption]
    omega
  · rw [if_neg hk]
    by_cases hs : sectorSize < 16
    · rw [if_pos hs]
      simp [Except.toOption]
      omega
    · rw [if_neg hs]
      simp [Except.toOption]
      all_goals omega

/-! ### C8: NBD READ command -/

theorem readAt_length_le (img : Image) (off : Int) (n : Nat) :
    (img.readAt off n).1.length ≤ n := by
  rw [Image.readAt]
  by_cases h : off < 0
  · rw [if_pos h]; simp
  · rw [if_neg h]
    show ((List.range (min n (img.size - off).toNat)).map
      fun i : Nat => img.byte (off + (i : Int))).length ≤ n
    rw [List.length_map, List.length_range]
    omega

/-- C8 (counterexample).  The claim requires EINVAL whenever the
mathematical sum `offset + length` exceeds the export size, but the
code compares `offset+uint64(length)` in wrapping 64-bit arithmetic: at
`offset = 2^64 - 1`, `length = 2` and export size 1024 the sum wraps to
1, the bounds check passes, and the backing read at `int64(offset) =
-1` fails, so the reply is EIO (5), not EINVAL (22). -/
theorem nbd_read_overflow_counterexample :
    nbdHandleRead 1024 ⟨1024, fun _ => 7⟩ (2 ^ 64 - 1) 2 = (nbdErrIo, []) ∧
    2 ^ 64 - 1 + 2 > 1024 ∧ nbdErrIo ≠ nbdErrInval := by
  refine ⟨by decide, by norm_num, by decide⟩

/-- C8 (amended).  `handleRead` replies EINVAL with no payload exactly
when `offset + length` computed modulo `2^64` exceeds the export size;
otherwise, a backing read failing with a non-EOF error yields an EIO
reply with no payload, and any other backing read outcome yields error
code 0 with exactly `length` payload bytes, the bytes beyond those the
backing reader returned being zero. -/
theorem nbd_read_characterization (exportSize : Int) (reader : Image)
    (offset length : Nat) (hsz : 0 ≤ exportSize) :
    ((offset + length) % 2 ^ 64 > uint64OfInt64 exportSize →
      nbdHandleRead exportSize reader offset length = (nbdErrInval, [])) ∧
    (¬ (offset + length) % 2 ^ 64 > uint64OfInt64 exportSize →
      ((reader.readAt (int64OfUInt64 offset) length).2 = some RErr.err →
        nbdHandleRead exportSize reader offset length = (nbdErrIo, [])) ∧
      ((reader.readAt (int64OfUInt64 offset) length).2 ≠ some RErr.err →
        nbdHandleRead exportSize reader offset length =
          (nbdErrNone,
            (reader.readAt (int64OfUInt64 offset) length).1 ++
              List.replicate
                (length -
                  (reader.readAt (int64OfUInt64 offset) length).1.length) 0) ∧
        (nbdHandleRead exportSize reader offset length).2.length = length)) := by
  constructor
  · intro hgt
    rw [nbdHandleRead, if_pos hgt]
  · intro hle
    constructor
    · intro herr
      rw [nbdHandleRead, if_neg hle]
      simp [herr]
    · intro hok
      rw [nbdHandleRead, if_neg hle]
      simp only
      rw [if_neg hok]
      refine ⟨rfl, ?_⟩
      have hb := readAt_length_le reader (int64OfUInt64 offset) length
      simp only [List.length_append, List.length_replicate]
      omega

/-- Witness for the amended C8 at a concrete export and request. -/
theorem nbd_read_characterization_witness :
    (0 : Int) ≤ 1024 ∧
    (((0 + 4) % 2 ^ 64 > uint64OfInt64 1024 →
      nbdHandleRead 1024 ⟨1024, fun _ => 7⟩ 0 4 = (nbdErrInval, [])) ∧
    (¬ (0 + 4) % 2 ^ 64 > uint64OfInt64 1024 →
      (((⟨1024, fun _ => 7⟩ : Image).readAt (int64OfUInt64 0) 4).2 =
          some RErr.err →
        nbdHandleRead 1024 ⟨1024, fun _ => 7⟩ 0 4 = (nbdErrIo, [])) ∧
      (((⟨1024, fun _ => 7⟩ : Image).readAt (int64OfUInt64 0) 4).2 ≠
          some RErr.err →
        nbdHandleRead 1024 ⟨1024, fun _ => 7⟩ 0 4 =
          (nbdErrNone,
            ((⟨1024, fun _ => 7⟩ : Image).readAt (int64OfUInt64 0) 4).1 ++
              List.replicate
                (4 - ((⟨1024, fun _ => 7⟩ : Image).readAt
                  (int64OfUInt64 0) 4).1.length) 0) ∧
        (nbdHandleRead 1024 ⟨1024, fun _ => 7⟩ 0 4).2.length = 4))) :=
  ⟨by norm_num,
    nbd_read_characterization 1024 ⟨1024, fun _ => 7⟩ 0 4 (by norm_num)⟩

/-! ### C6: GPT entry cap -/

set_option maxRecDepth 1000000 in
/-- C6 (counterexample).  The claim says at most 128 partition entries
are ever examined (the header count capped at 128); but on an image
whose header declares 129 entries, all with non-zero type GUIDs,
`parseGPT` emits 129 partitions — no cap is applied. -/
theorem parseGPT_exceeds_128 :
    (parseGPT gptManyImage).toOption.map List.length = some 129 ∧ 128 < 129 :=
  ⟨by decide, by norm_num⟩

theorem parseGPTEntries_count (img : Image) (entryOffset : Int) (esize : Nat) :
    ∀ (idxs : List Nat) (acc : List Partition),
      (∀ i ∈ idxs, (gptEntryAt img entryOffset esize i).isSome = true) →
      (parseGPTEntries img entryOffset esize idxs acc).length =
        acc.length + (idxs.filter (gptEntryUsed img entryOffset esize)).length := by
  intro idxs
  induction idxs with
  | nil => intro acc _; simp [parseGPTEntries]
  | cons i rest ih =>
    intro acc hr
    have hi : (gptEntryAt img entryOffset esize i).isSome = true :=
      hr i (List.mem_cons_self i rest)
    rcases hent : gptEntryAt img entryOffset esize i with _ | entry
    · rw [hent] at hi; cases hi
    simp only [parseGPTEntries, hent]
    have hused : gptEntryUsed img entryOffset esize i =
        ! isZeroGUID (slice entry 0 16) := by
      rw [gptEntryUsed, hent]
    by_cases hz : isZeroGUID (slice entry 0 16) = true
    · rw [if_pos hz, ih acc (fun j hj => hr j (List.mem_cons_of_mem i hj))]
      rw [List.filter_cons_of_neg (by rw [hused, hz]; simp)]
    · rw [if_neg hz,
        ih _ (fun j hj => hr j (List.mem_cons_of_mem i hj)),
        List.filter_cons_of_pos (by rw [hused]; simpa using hz)]
      simp only [List.length_append, List.length_cons, List.length_nil]
      omega

/-- C6 (amended).  `parseGPT` applies no cap: it examines exactly the
header-declared `num_partition_entries` entries whenever every entry
read succeeds (a failed read stops the loop early), emitting one
partition per entry with a non-zero type GUID — so more than 128
partitions can be emitted. -/
theorem parseGPT_no_cap (img : Image) (header : List Nat)
    (hh : img.readFull 512 512 = some header)
    (hsig : slice header 0 8 = [69, 70, 73, 32, 80, 65, 82, 84])
    (hesz : 128 ≤ leNat (slice header 84 88))
    (hreads : ∀ i ∈ List.range (leNat (slice header 80 84)),
      (gptEntryAt img
        (wrap64 (int64OfUInt64 (leNat (slice header 72 80)) * 512))
        (leNat (slice header 84 88)) i).isSome = true) :
    ∃ ps, parseGPT img = .ok ps ∧
      ps.length = ((List.range (leNat (slice header 80 84))).filter
        (gptEntryUsed img
          (wrap64 (int64OfUInt64 (leNat (slice header 72 80)) * 512))
          (leNat (slice header 84 88)))).length := by
  have hps : parseGPT img = .ok (parseGPTEntries img
      (wrap64 (int64OfUInt64 (leNat (slice header 72 80)) * 512))
      (leNat (slice header 84 88))
      (List.range (leNat (slice header 80 84))) []) := by
    simp only [parseGPT, hh]
    rw [if_neg (by rw [hsig]; simp), if_neg (by omega)]
  refine ⟨_, hps, ?_⟩
  rw [parseGPTEntries_count img _ _ _ [] hreads]
  simp

set_option maxRecDepth 1000000 in
/-- Witness for the amended C6 at a two-entry GPT image. -/
theorem parseGPT_no_cap_witness :
    (gptSmallImage.readFull 512 512 =
        some ((gptSmallImage.readFull 512 512).getD []) ∧
      slice ((gptSmallImage.readFull 512 512).getD []) 0 8 =
        [69, 70, 73, 32, 80, 65, 82, 84] ∧
      128 ≤ leNat (slice ((gptSmallImage.readFull 512 512).getD []) 84 88) ∧
      (∀ i ∈ List.range
          (leNat (slice ((gptSmallImage.readFull 512 512).getD []) 80 84)),
        (gptEntryAt gptSmallImage
          (wrap64 (int64OfUInt64
            (leNat (slice ((gptSmallImage.readFull 512 512).getD []) 72 80))
              * 512))
          (leNat (slice ((gptSmallImage.readFull 512 512).getD []) 84 88))
          i).isSome = true)) ∧
    (∃ ps, parseGPT gptSmallImage = .ok ps ∧
      ps.length = ((List.range
          (leNat (slice ((gptSmallImage.readFull 512 512).getD []) 80 84))).filter
        (gptEntryUsed gptSmallImage
          (wrap64 (int64OfUInt64
            (leNat (slice ((gptSmallImage.readFull 512 512).getD []) 72 80))
              * 512))
          (leNat (slice ((gptSmallImage.readFull 512 512).getD []) 84 88)))).length) :=
  ⟨⟨by decide, by decide, by decide, by decide⟩,
    parseGPT_no_cap gptSmallImage ((gptSmallImage.readFull 512 512).getD [])
      (by decide) (by decide) (by decide) (by decide)⟩

/-! ### C7: FAT type reporting -/

set_option maxRecDepth 1000000 in
/-- C7 (counterexample).  A boot sector that is not structurally FAT32
(16-bit FAT size non-zero) with 69998 clusters (≥ 65525) and no
"FAT32   " string: the claim's threshold rule demands "FAT32", but
`parseBPB` reports "FAT16" — the 65525 threshold and the offset-82
string play no role in the code. -/
theorem fat_type_counterexample :
    fatOpen fatBigImage =
      some (⟨512, 1, 1, 1, 0, 70000, 1, 0, 2, 69998, 69998, false⟩, "FAT16") ∧
    65525 ≤ 69998 ∧ "FAT16" ≠ "FAT32" :=
  ⟨by decide, by norm_num, by decide⟩

/-- C7 (amended).  For every successfully opened FAT filesystem, the
reported type is "FAT32" exactly when the BPB is structurally FAT32
(16-bit FAT-size field at offset 22 is zero); otherwise it is "FAT12"
when the cluster count is below 4085 and "FAT16" otherwise.  Neither
the "FAT32   " string at offset 82 nor the 65525 threshold is
consulted. -/
theorem fat_type_characterization (img : Image) (b : Bpb) (t : String)
    (h : fatOpen img = some (b, t)) :
    t = (if b.isFAT32 then "FAT32"
      else if b.countOfClusters < 4085 then "FAT12" else "FAT16") ∧
    (b.isFAT32 = true ↔
      leNat (slice ((img.readFull 0 512).getD []) 22 24) = 0) := by
  rcases hh : img.readFull 0 512 with _ | header
  · simp only [fatOpen, hh] at h
    exact Option.noConfusion h
  simp only [fatOpen, hh] at h
  by_cases hsig : header.getD 510 0 = 0x55 ∧ header.getD 511 0 = 0xAA
  · rw [if_pos hsig] at h
    rw [parseBPB] at h
    by_cases hz : leNat (slice header 11 13) = 0 ∨ header.getD 13 0 = 0
    · rw [if_pos hz] at h; cases h
    rw [if_neg hz] at h
    simp only [Option.some.injEq, Prod.mk.injEq] at h
    rcases h with ⟨hb, ht⟩
    subst hb
    constructor
    · rw [← ht]
    · simp only [Option.getD_some]
      exact beq_iff_eq
  · rw [if_neg hsig] at h; cases h

set_option maxRecDepth 1000000 in
/-- Witness for the amended C7 at the 69998-cluster boot sector. -/
theorem fat_type_characterization_witness :
    fatOpen fatBigImage =
      some (⟨512, 1, 1, 1, 0, 70000, 1, 0, 2, 69998, 69998, false⟩, "FAT16") ∧
    ("FAT16" = (if (false : Bool) then "FAT32"
      else if 69998 < 4085 then "FAT12" else "FAT16") ∧
    ((false : Bool) = true ↔
      leNat (slice ((fatBigImage.readFull 0 512).getD []) 22 24) = 0)) :=
  ⟨by decide,
    fat_type_characterization fatBigImage
      ⟨512, 1, 1, 1, 0, 70000, 1, 0, 2, 69998, 69998, false⟩ "FAT16"
      (by decide)⟩

/-! ### C9: free-space ordering -/

theorem wrap64_small {z : Int} (h0 : -(2 ^ 63) ≤ z) (h1 : z < 2 ^ 63) :
    wrap64 z = z := by
  rw [wrap64]
  omega

theorem wrap64_bounds (z : Int) : -(2 ^ 63) ≤ wrap64 z ∧ wrap64 z < 2 ^ 63 := by
  rw [wrap64]
  constructor <;> omega

theorem int64OfUInt64_small {n : Nat} (h : n < 2 ^ 63) :
    int64OfUInt64 n = n := by
  rw [int64OfUInt64, if_pos h]

theorem scanStep_stok (offset : Nat → Int) (lo hi : Int) (i : Nat)
    (rest : List Nat) (b : Bool) (st : ScanSt)
    (hmono : ∀ j ∈ rest, offset i < offset j)
    (hlo : lo ≤ offset i) (hhi : offset i < hi)
    (h : StOk offset lo hi (i :: rest) st) :
    StOk offset lo hi rest (scanStep (offset i) b st) := by
  obtain ⟨hpw, hok, hfut, hopen⟩ := h
  have hfutr : ∀ j ∈ rest, ∀ r ∈ st.ranges, r.Stop ≤ offset j :=
    fun j hj => hfut j (List.mem_cons_of_mem i hj)
  have hfuti : ∀ r ∈ st.ranges, r.Stop ≤ offset i :=
    hfut i (List.mem_cons_self i rest)
  rw [scanStep]
  by_cases hb : b = true
  · by_cases hin : st.inFree = true
    · rw [if_neg (by simp [hb, hin]), if_neg (by simp [hb, hin])]
      exact ⟨hpw, hok, hfutr, fun hf =>
        ⟨(hopen hf).1, fun j hj => (hopen hf).2.1 j (List.mem_cons_of_mem i hj),
          (hopen hf).2.2⟩⟩
    · rw [if_pos (by simp [hb, hin])]
      exact ⟨hpw, hok, hfutr, fun _ =>
        ⟨hfuti, fun j hj => hmono j hj, hlo, hhi⟩⟩
  · by_cases hin : st.inFree = true
    · rw [if_neg (by simp [hb]), if_pos (by simp [hb, hin])]
      obtain ⟨hcl, hfo, hlo2, hhi2⟩ := hopen hin
      refine ⟨?_, ?_, ?_, by simp⟩
      · rw [List.pairwise_append]
        exact ⟨hpw, List.pairwise_singleton _ _,
          fun r hr r2 hr2 => by
            rw [List.mem_singleton] at hr2
            subst hr2
            exact hcl r hr⟩
      · intro r hr
        rcases List.mem_append.mp hr with hr | hr
        · exact hok r hr
        · rw [List.mem_singleton] at hr
          subst hr
          exact ⟨lt_of_le_of_lt (le_refl _) (hfo i (List.mem_cons_self i rest)),
            hlo2, le_of_lt hhi⟩
      · intro j hj r hr
        rcases List.mem_append.mp hr with hr | hr
        · exact hfutr j hj r hr
        · rw [List.mem_singleton] at hr
          subst hr
          exact le_of_lt (hmono j hj)
    · rw [if_neg (by simp [hb, hin]), if_neg (by simp [hin])]
      exact ⟨hpw, hok, hfutr, fun hf => absurd hf hin⟩

theorem scanFold_stok (offset : Nat → Int) (free : Nat → Bool) (lo hi : Int) :
    ∀ (idxs : List Nat) (st : ScanSt),
      idxs.Pairwise (fun i j => offset i < offset j) →
      (∀ i ∈ idxs, lo ≤ offset i ∧ offset i < hi) →
      StOk offset lo hi idxs st →
      StOk offset lo hi [] (scanFold offset free idxs st) := by
  intro idxs
  induction idxs with
  | nil => intro st _ _ h; exact h
  | cons i rest ih =>
    intro st hpw hbnd h
    rw [scanFold]
    exact ih _ (List.pairwise_cons.mp hpw).2
      (fun j hj => hbnd j (List.mem_cons_of_mem i hj))
      (scanStep_stok offset lo hi i rest (free i) st
        (List.pairwise_cons.mp hpw).1
        (hbnd i (List.mem_cons_self i rest)).1
        (hbnd i (List.mem_cons_self i rest)).2 h)

theorem stok_final (offset : Nat → Int) (lo hi : Int) (st : ScanSt)
    (h : StOk offset lo hi [] st) :
    RangesWF (if st.inFree = true then
        st.ranges ++ [⟨st.rangeStart, hi⟩] else st.ranges) ∧
    ∀ r ∈ (if st.inFree = true then
        st.ranges ++ [⟨st.rangeStart, hi⟩] else st.ranges),
      lo ≤ r.Start ∧ r.Stop ≤ hi := by
  obtain ⟨hpw, hok, _, hopen⟩ := h
  by_cases hin : st.inFree = true
  · rw [if_pos hin]
    obtain ⟨hcl, _, hlo2, hhi2⟩ := hopen hin
    refine ⟨⟨?_, ?_⟩, ?_⟩
    · rw [List.pairwise_append]
      exact ⟨hpw, List.pairwise_singleton _ _,
        fun r hr r2 hr2 => by
          rw [List.mem_singleton] at hr2
          subst hr2
          exact hcl r hr⟩
    · intro r hr
      rcases List.mem_append.mp hr with hr | hr
      · exact (hok r hr).1
      · rw [List.mem_singleton] at hr
        subst hr
        exact hhi2
    · intro r hr
      rcases List.mem_append.mp hr with hr | hr
      · exact ⟨(hok r hr).2.1, (hok r hr).2.2⟩
      · rw [List.mem_singleton] at hr
        subst hr
        exact ⟨hlo2, le_refl _⟩
  · rw [if_neg hin]
    exact ⟨⟨hpw, fun r hr => (hok r hr).1⟩,
      fun r hr => ⟨(hok r hr).2.1, (hok r hr).2.2⟩⟩

theorem stok_init (offset : Nat → Int) (lo hi : Int) (idxs : List Nat) :
    StOk offset lo hi idxs ⟨false, 0, []⟩ := by
  refine ⟨List.Pairwise.nil, by simp, by simp, by simp⟩

theorem range'_pairwise_lt : ∀ (n s : Nat), (List.range' s n).Pairwise (· < ·) := by
  intro n
  induction n with
  | zero => intro s; simp
  | succ k ih =>
    intro s
    rw [List.range']
    exact List.pairwise_cons.mpr
      ⟨fun m hm => by
        rw [List.mem_range'_1] at hm
        omega, ih (s + 1)⟩

theorem clusterToOffset_lt (b : Bpb) (hbps : 1 ≤ b.bytesPerSector)
    (hspc : 1 ≤ b.sectorsPerCluster) {c c' : Nat} (h : c < c') :
    clusterToOffset b c < clusterToOffset b c' := by
  rw [clusterToOffset, clusterToOffset]
  have hS : (0 : Int) < (b.sectorsPerCluster : Int) := by exact_mod_cast hspc
  have hB : (0 : Int) < (b.bytesPerSector : Int) := by exact_mod_cast hbps
  have h1 : ((c : Int) - 2) < ((c' : Int) - 2) := by
    have : (c : Int) < (c' : Int) := by exact_mod_cast h
    omega
  have h2 := mul_lt_mul_of_pos_right (mul_lt_mul_of_pos_right h1 hS) hB
  linarith

theorem clusterToOffset_le (b : Bpb) (hbps : 1 ≤ b.bytesPerSector)
    (hspc : 1 ≤ b.sectorsPerCluster) {c c' : Nat} (h : c ≤ c') :
    clusterToOffset b c ≤ clusterToOffset b c' := by
  rcases Nat.lt_or_ge c c' with h2 | h2
  · exact le_of_lt (clusterToOffset_lt b hbps hspc h2)
  · have : c = c' := by omega
    subst this
    exact le_refl _

theorem fatScan_eq (img : Image) (b : Bpb) (t : FatTable) :
    ∀ (idxs : List Nat) (st st' : ScanSt),
      fatScan img b t idxs st = some st' →
      st' = scanFold (clusterToOffset b) (fatIsFree img t) idxs st := by
  intro idxs
  induction idxs with
  | nil =>
    intro st st' h
    rw [scanFold]
    exact (Option.some.inj h).symm
  | cons c rest ih =>
    intro st st' h
    rcases hent : fatNext img t c with _ | e
    · simp only [fatScan, hent] at h
      exact Option.noConfusion h
    · simp only [fatScan, hent] at h
      rw [scanFold]
      have hfree : fatIsFree img t c = (e == 0) := by
        rw [fatIsFree, hent]
        rfl
      rw [hfree]
      exact ih _ _ h

theorem fatFreeBlocks_wf (img : Image) (b : Bpb) (t : FatTable)
    (hbps : 1 ≤ b.bytesPerSector) (hspc : 1 ≤ b.sectorsPerCluster)
    (rs : List Range) (h : fatFreeBlocks img b t = some rs) :
    RangesWF rs := by
  simp only [fatFreeBlocks] at h
  rcases hscan : fatScan img b t
      (List.range' 2 ((b.countOfClusters + 2) % 2 ^ 32 - 2)) ⟨false, 0, []⟩
    with _ | st
  · simp only [hscan] at h
    exact Option.noConfusion h
  · simp only [hscan] at h
    have hst := fatScan_eq img b t _ _ _ hscan
    set U := (b.countOfClusters + 2) % 2 ^ 32 with hU
    have hUlt : U < 2 ^ 32 := by
      rw [hU]
      exact Nat.mod_lt _ (by norm_num)
    have hSB : (0 : Int) < (b.sectorsPerCluster : Int) * (b.bytesPerSector : Int) :=
      mul_pos (by exact_mod_cast hspc) (by exact_mod_cast hbps)
    have hstok := scanFold_stok (clusterToOffset b) (fatIsFree img t)
      (clusterToOffset b 2)
      (clusterToOffset b ((U + 2 ^ 32 - 1) % 2 ^ 32) +
        (b.sectorsPerCluster : Int) * (b.bytesPerSector : Int))
      (List.range' 2 (U - 2)) ⟨false, 0, []⟩
      ((range'_pairwise_lt (U - 2) 2).imp
        fun hij => clusterToOffset_lt b hbps hspc hij)
      (by
        intro i hi
        rw [List.mem_range'_1] at hi
        have h2i : 2 ≤ i := hi.1
        have hiU : i < U := by omega
        have hU3 : 3 ≤ U := by omega
        refine ⟨clusterToOffset_le b hbps hspc h2i, ?_⟩
        have hmod : (U + 2 ^ 32 - 1) % 2 ^ 32 = U - 1 := by omega
        rw [hmod]
        have h1 : clusterToOffset b i ≤ clusterToOffset b (U - 1) :=
          clusterToOffset_le b hbps hspc (by omega)
        linarith)
      (stok_init _ _ _ _)
    rw [← hst] at hstok
    have hfin := stok_final _ _ _ _ hstok
    by_cases hin : st.inFree = true
    · rw [if_pos hin] at h
      rw [← Option.some.inj h]
      rw [if_pos hin] at hfin
      exact hfin.1
    · rw [if_neg hin] at h
      rw [← Option.some.inj h]
      rw [if_neg hin] at hfin
      exact hfin.1

theorem scan_close_wf (offset : Nat → Int) (free : Nat → Bool) (lo hi : Int)
    (idxs : List Nat)
    (hpw : idxs.Pairwise fun i j => offset i < offset j)
    (hbnd : ∀ i ∈ idxs, lo ≤ offset i ∧ offset i < hi) :
    RangesWF (let st := scanFold offset free idxs ⟨false, 0, []⟩;
      if st.inFree = true then st.ranges ++ [⟨st.rangeStart, hi⟩] else st.ranges) ∧
    ∀ r ∈ (let st := scanFold offset free idxs ⟨false, 0, []⟩;
      if st.inFree = true then st.ranges ++ [⟨st.rangeStart, hi⟩] else st.ranges),
      lo ≤ r.Start ∧ r.Stop ≤ hi :=
  stok_final offset lo hi _
    (scanFold_stok offset free lo hi idxs _ hpw hbnd (stok_init _ _ _ _))

theorem extGroupOffset_eq (fs : ExtSB) (fb i : Nat) (hbs : 1 ≤ fs.blockSize)
    (h : (fb + i) * fs.blockSize < 2 ^ 62) :
    extGroupOffset fs fb i = (((fb + i) * fs.blockSize : Nat) : Int) := by
  have hone : (fb + i) * 1 ≤ (fb + i) * fs.blockSize := mul_le_mul_left' hbs _
  have h1 : fb + i < 2 ^ 62 := by
    have h2 := Nat.mul_one (fb + i)
    omega
  rw [extGroupOffset, Nat.mod_eq_of_lt (by omega), int64OfUInt64_small (by omega)]
  rw [show ((fb + i : Nat) : Int) * (fs.blockSize : Int) =
    (((fb + i) * fs.blockSize : Nat) : Int) by push_cast; ring]
  exact wrap64_small (le_trans (by norm_num) (Int.natCast_nonneg _))
    (by exact_mod_cast (by omega : (fb + i) * fs.blockSize < 2 ^ 63))

theorem extScanGroup_wf (fs : ExtSB) (bitmap : List Nat) (fb big : Nat)
    (hbs : 1 ≤ fs.blockSize)
    (hbound : (fb + big) * fs.blockSize < 2 ^ 62) :
    RangesWF (extScanGroup fs bitmap fb big) ∧
    ∀ r ∈ extScanGroup fs bitmap fb big,
      ((fb * fs.blockSize : Nat) : Int) ≤ r.Start ∧
      r.Stop ≤ (((fb + big) * fs.blockSize : Nat) : Int) := by
  have hoffs : ∀ i ≤ big, extGroupOffset fs fb i =
      (((fb + i) * fs.blockSize : Nat) : Int) := by
    intro i hi
    exact extGroupOffset_eq fs fb i hbs
      (lt_of_le_of_lt (mul_le_mul_right' (by omega) _) hbound)
  have hmem : ∀ i ∈ List.range (min big (8 * bitmap.length)), i ≤ big := by
    intro i hi
    rw [List.mem_range] at hi
    omega
  have h := scan_close_wf (extGroupOffset fs fb) (extBitFree bitmap)
    (((fb * fs.blockSize : Nat)) : Int) (extGroupOffset fs fb big)
    (List.range (min big (8 * bitmap.length)))
    ((List.pairwise_lt_range _).imp_of_mem (by
      intro i j hi hj hij
      rw [hoffs i (hmem i hi), hoffs j (hmem j hj)]
      have : (fb + i) * fs.blockSize < (fb + j) * fs.blockSize :=
        mul_lt_mul_of_pos_right (by omega) (by omega)
      exact_mod_cast this))
    (by
      intro i hi
      have hib := hmem i hi
      rw [List.mem_range] at hi
      rw [hoffs i hib, hoffs big (le_refl _)]
      constructor
      · exact_mod_cast mul_le_mul_right' (by omega : fb ≤ fb + i) fs.blockSize
      · exact_mod_cast mul_lt_mul_of_pos_right
          (by omega : fb + i < fb + big) (by omega : 0 < fs.blockSize))
  refine ⟨h.1, ?_⟩
  intro r hr
  have h2 := h.2 r hr
  rw [hoffs big (le_refl _)] at h2
  exact h2

set_option maxHeartbeats 2000000 in
theorem extGroups_wf (img : Image) (fs : ExtSB)
    (hbs : 1 ≤ fs.blockSize)
    (hgc : fs.groupCount * fs.blocksPerGroup + fs.firstDataBlock <
      fs.blocksCount + fs.blocksPerGroup)
    (hbc : fs.blocksCount * fs.blockSize < 2 ^ 62) :
    ∀ (gs : List Nat) (LB : Int) (ranges : List Range),
      gs.Pairwise (· < ·) →
      (∀ g ∈ gs, g < fs.groupCount) →
      (∀ g ∈ gs, LB ≤
        (((fs.firstDataBlock + g * fs.blocksPerGroup) * fs.blockSize : Nat) : Int)) →
      extGroups img fs gs = some ranges →
      RangesWF ranges ∧ ∀ r ∈ ranges, LB ≤ r.Start := by
  have hbc1 : fs.blocksCount < 2 ^ 62 := by
    have h1 : fs.blocksCount * 1 ≤ fs.blocksCount * fs.blockSize :=
      mul_le_mul_left' hbs _
    have h2 := Nat.mul_one fs.blocksCount
    omega
  intro gs
  induction gs with
  | nil =>
    intro LB ranges _ _ _ h
    rw [← Option.some.inj h]
    exact ⟨⟨List.Pairwise.nil, by simp⟩, by simp⟩
  | cons g rest ih =>
    intro LB ranges hpw hlt hLB h
    have hcons : extGroups img fs (g :: rest) =
        extGroupStep img fs g (extGroups img fs rest) := rfl
    rw [hcons] at h
    rcases hbgd : readBlockGroupDescriptor img fs g with _ | bgd
    · simp [extGroupStep, hbgd] at h
    rcases hbm : readBlock img fs bgd.blockBitmap with _ | bm
    · simp [extGroupStep, hbgd, hbm] at h
    rcases hrest : extGroups img fs rest with _ | rest'
    · simp [extGroupStep, hbgd, hbm, hrest] at h
    simp only [extGroupStep, hbgd, hbm, hrest] at h
    have hg : g < fs.groupCount := hlt g (List.mem_cons_self g rest)
    have hmul1 : (g + 1) * fs.blocksPerGroup ≤ fs.groupCount * fs.blocksPerGroup :=
      mul_le_mul_right' (by omega) _
    have hexp : (g + 1) * fs.blocksPerGroup =
        g * fs.blocksPerGroup + fs.blocksPerGroup := by ring
    have hfblt : fs.firstDataBlock + g * fs.blocksPerGroup < fs.blocksCount := by
      omega
    have hfb_eq : (fs.firstDataBlock + g * fs.blocksPerGroup) % 2 ^ 64 =
        fs.firstDataBlock + g * fs.blocksPerGroup := Nat.mod_eq_of_lt (by omega)
    rw [hfb_eq] at h
    have hrem : (fs.blocksCount + 2 ^ 64 -
        (fs.firstDataBlock + g * fs.blocksPerGroup)) % 2 ^ 64 =
        fs.blocksCount - (fs.firstDataBlock + g * fs.blocksPerGroup) := by
      omega
    rw [hrem] at h
    have hmin := Nat.min_le_right fs.blocksPerGroup
      (fs.blocksCount - (fs.firstDataBlock + g * fs.blocksPerGroup))
    have hfbbig : fs.firstDataBlock + g * fs.blocksPerGroup +
        min fs.blocksPerGroup
          (fs.blocksCount - (fs.firstDataBlock + g * fs.blocksPerGroup)) ≤
        fs.blocksCount := by omega
    have hbound : (fs.firstDataBlock + g * fs.blocksPerGroup +
        min fs.blocksPerGroup
          (fs.blocksCount - (fs.firstDataBlock + g * fs.blocksPerGroup))) *
        fs.blockSize < 2 ^ 62 :=
      lt_of_le_of_lt (mul_le_mul_right' hfbbig _) hbc
    obtain ⟨hwf_seg, hbnd_seg⟩ := extScanGroup_wf fs bm
      (fs.firstDataBlock + g * fs.blocksPerGroup)
      (min fs.blocksPerGroup
        (fs.blocksCount - (fs.firstDataBlock + g * fs.blocksPerGroup)))
      hbs hbound
    have hLBrest : ∀ g' ∈ rest,
        (((fs.firstDataBlock + g * fs.blocksPerGroup +
          min fs.blocksPerGroup
            (fs.blocksCount - (fs.firstDataBlock + g * fs.blocksPerGroup))) *
          fs.blockSize : Nat) : Int) ≤
        (((fs.firstDataBlock + g' * fs.blocksPerGroup) * fs.blockSize : Nat) : Int) := by
      intro g' hg'
      have hgg' : g < g' := (List.pairwise_cons.mp hpw).1 g' hg'
      have hmul2 : (g + 1) * fs.blocksPerGroup ≤ g' * fs.blocksPerGroup :=
        mul_le_mul_right' (by omega) _
      have hle : fs.firstDataBlock + g * fs.blocksPerGroup +
          min fs.blocksPerGroup
            (fs.blocksCount - (fs.firstDataBlock + g * fs.blocksPerGroup)) ≤
          fs.firstDataBlock + g' * fs.blocksPerGroup := by
        have := Nat.min_le_left fs.blocksPerGroup
          (fs.blocksCount - (fs.firstDataBlock + g * fs.blocksPerGroup))
        omega
      exact_mod_cast mul_le_mul_right' hle fs.blockSize
    obtain ⟨hwf_rest, hlb_rest⟩ := ih _ rest' (List.pairwise_cons.mp hpw).2
      (fun g' hg' => hlt g' (List.mem_cons_of_mem g hg')) hLBrest hrest
    rw [← Option.some.inj h]
    constructor
    · constructor
      · rw [List.pairwise_append]
        refine ⟨hwf_seg.1, hwf_rest.1, ?_⟩
        intro r hr r2 hr2
        exact le_trans ((hbnd_seg r hr).2) (hlb_rest r2 hr2)
      · intro r hr
        rcases List.mem_append.mp hr with hr | hr
        · exact hwf_seg.2 r hr
        · exact hwf_rest.2 r hr
    · intro r hr
      have hLBg := hLB g (List.mem_cons_self g rest)
      rcases List.mem_append.mp hr with hr | hr
      · exact le_trans hLBg (hbnd_seg r hr).1
      · refine le_trans hLBg (le_trans ?_ (hlb_rest r hr))
        exact_mod_cast mul_le_mul_right' (by omega) fs.blockSize

theorem mergeGo_wf : ∀ (rest : List Range) (current : Range),
    current.Start < current.Stop →
    RangesWF rest →
    (∀ r ∈ rest, current.Stop ≤ r.Start) →
    RangesWF (mergeGo current rest) ∧
    ∀ r ∈ mergeGo current rest, current.Start ≤ r.Start := by
  intro rest
  induction rest with
  | nil =>
    intro current hpos _ _
    rw [mergeGo]
    exact ⟨⟨List.pairwise_singleton _ _, by simpa using hpos⟩, by simp⟩
  | cons r rest ih =>
    intro current hpos hwf hsep
    have hr_pos : r.Start < r.Stop := hwf.2 r (List.mem_cons_self r rest)
    have hwf_rest : RangesWF rest :=
      ⟨(List.pairwise_cons.mp hwf.1).2,
        fun x hx => hwf.2 x (List.mem_cons_of_mem r hx)⟩
    have hsep_rest : ∀ x ∈ rest, r.Stop ≤ x.Start :=
      (List.pairwise_cons.mp hwf.1).1
    rw [mergeGo]
    by_cases hadj : r.Start = current.Stop
    · rw [if_pos hadj]
      have hmerged := ih ⟨current.Start, r.Stop⟩
        (by dsimp only; omega) hwf_rest
        (by intro x hx; dsimp only; exact hsep_rest x hx)
      exact ⟨hmerged.1, fun x hx => hmerged.2 x hx⟩
    · rw [if_neg hadj]
      have hrec := ih r hr_pos hwf_rest hsep_rest
      have hcur_r : current.Stop ≤ r.Start := hsep r (List.mem_cons_self r rest)
      refine ⟨⟨List.pairwise_cons.mpr ⟨?_, hrec.1.1⟩, ?_⟩, ?_⟩
      · intro x hx
        exact le_trans hcur_r (hrec.2 x hx)
      · intro x hx
        rcases List.mem_cons.mp hx with hx | hx
        · subst hx; exact hpos
        · exact hrec.1.2 x hx
      · intro x hx
        rcases List.mem_cons.mp hx with hx | hx
        · subst hx; exact le_refl _
        · exact le_trans (le_of_lt hpos) (le_trans hcur_r (hrec.2 x hx))

theorem mergeRanges_wf (rs : List Range) (h : RangesWF rs) :
    RangesWF (mergeRanges rs) := by
  match rs with
  | [] => exact h
  | [r] => exact h
  | r :: r2 :: rest =>
    have : mergeRanges (r :: r2 :: rest) = mergeGo r (r2 :: rest) := rfl
    rw [this]
    exact (mergeGo_wf (r2 :: rest) r (h.2 r (List.mem_cons_self _ _))
      ⟨(List.pairwise_cons.mp h.1).2, fun x hx => h.2 x (List.mem_cons_of_mem r hx)⟩
      (List.pairwise_cons.mp h.1).1).1

theorem extFreeBlocks_wf (img : Image) (fs : ExtSB)
    (hbs : 1 ≤ fs.blockSize)
    (hgc : fs.groupCount * fs.blocksPerGroup + fs.firstDataBlock <
      fs.blocksCount + fs.blocksPerGroup)
    (hbc : fs.blocksCount * fs.blockSize < 2 ^ 62)
    (rs : List Range) (h : extFreeBlocks img fs = some rs) :
    RangesWF rs := by
  simp only [extFreeBlocks] at h
  rcases hg : extGroups img fs (List.range fs.groupCount) with _ | ranges
  · simp only [hg] at h
    exact Option.noConfusion h
  · simp only [hg] at h
    rw [← Option.some.inj h]
    refine mergeRanges_wf ranges (extGroups_wf img fs hbs hgc hbc _ 0 ranges
      (List.pairwise_lt_range _) (fun g hg2 => List.mem_range.mp hg2)
      (fun g _ => Int.natCast_nonneg _) hg).1

theorem mem_insertByStart (r x : Int × Int) :
    ∀ l, x ∈ insertByStart r l ↔ x = r ∨ x ∈ l := by
  intro l
  induction l with
  | nil => simp [insertByStart]
  | cons y ys ih =>
    rw [insertByStart]
    by_cases hc : r.1 < y.1
    · rw [if_pos hc]
      simp [List.mem_cons]
    · rw [if_neg hc]
      simp only [List.mem_cons, ih]
      tauto

theorem mem_foldr_insert (x : Int × Int) :
    ∀ (l : List (Int × Int)), x ∈ l.foldr insertByStart [] ↔ x ∈ l := by
  intro l
  induction l with
  | nil => simp
  | cons y ys ih =>
    rw [List.foldr_cons, mem_insertByStart, ih]
    simp [List.mem_cons]

theorem partGapFold_inv : ∀ (rs : List (Int × Int)) (acc : List Range) (cur : Int),
    (∀ r ∈ rs, r.1 ≤ r.2) →
    acc.Pairwise (fun a b => a.Stop ≤ b.Start) →
    (∀ x ∈ acc, x.Start < x.Stop) →
    (∀ x ∈ acc, x.Stop ≤ cur) →
    (rs.foldl partGapStep (acc, cur)).1.Pairwise (fun a b => a.Stop ≤ b.Start) ∧
    (∀ x ∈ (rs.foldl partGapStep (acc, cur)).1, x.Start < x.Stop) ∧
    (∀ x ∈ (rs.foldl partGapStep (acc, cur)).1,
      x.Stop ≤ (rs.foldl partGapStep (acc, cur)).2) ∧
    cur ≤ (rs.foldl partGapStep (acc, cur)).2 := by
  intro rs
  induction rs with
  | nil =>
    intro acc cur _ hpw hpos hstop
    exact ⟨hpw, hpos, hstop, le_refl _⟩
  | cons r rest ih =>
    intro acc cur hr hpw hpos hstop
    rw [List.foldl_cons]
    have hr1 : r.1 ≤ r.2 := hr r (List.mem_cons_self r rest)
    have hrrest : ∀ x ∈ rest, x.1 ≤ x.2 :=
      fun x hx => hr x (List.mem_cons_of_mem r hx)
    rw [partGapStep]
    by_cases hgap : r.1 > cur
    · rw [if_pos hgap]
      have hcur2 : r.2 > cur := by omega
      rw [if_pos hcur2]
      have h1 := ih (acc ++ [⟨cur, r.1⟩]) r.2 hrrest
        (by
          rw [List.pairwise_append]
          refine ⟨hpw, List.pairwise_singleton _ _, ?_⟩
          intro a ha b hb
          rw [List.mem_singleton] at hb
          subst hb
          exact hstop a ha)
        (by
          intro x hx
          rcases List.mem_append.mp hx with hx | hx
          · exact hpos x hx
          · rw [List.mem_singleton] at hx
            subst hx
            exact hgap)
        (by
          intro x hx
          rcases List.mem_append.mp hx with hx | hx
          · exact le_trans (hstop x hx) (by omega)
          · rw [List.mem_singleton] at hx
            subst hx
            exact hr1)
      exact ⟨h1.1, h1.2.1, h1.2.2.1, le_trans (by omega) h1.2.2.2⟩
    · rw [if_neg hgap]
      by_cases hc2 : r.2 > cur
      · rw [if_pos hc2]
        have h1 := ih acc r.2 hrrest hpw hpos
          (fun x hx => le_trans (hstop x hx) (by omega))
        exact ⟨h1.1, h1.2.1, h1.2.2.1, le_trans (by omega) h1.2.2.2⟩
      · rw [if_neg hc2]
        exact ih acc cur hrrest hpw hpos hstop

theorem partFreeBlocks_wf (isGPT : Bool) (size : Int) (ps : List Partition)
    (hps : ∀ p ∈ ps, 0 ≤ partSizeBytes p ∧
      partStartOffset p + partSizeBytes p < 2 ^ 63) :
    RangesWF (partFreeBlocks isGPT size ps) := by
  simp only [partFreeBlocks]
  have hused : ∀ x ∈ ((ps.map fun p =>
      (partStartOffset p, wrap64 (partStartOffset p + partSizeBytes p))).foldr
      insertByStart []), x.1 ≤ x.2 := by
    intro x hx
    rw [mem_foldr_insert, List.mem_map] at hx
    obtain ⟨p, hp, hxp⟩ := hx
    have h1 := (hps p hp).1
    have h2 := (hps p hp).2
    have h3 := (wrap64_bounds (int64OfUInt64 p.StartLBA * 512)).1
    rw [← hxp]
    dsimp only
    rw [wrap64_small (by rw [partStartOffset] at h2 ⊢; omega) h2]
    omega
  have h1 := partGapFold_inv ((ps.map fun p =>
      (partStartOffset p, wrap64 (partStartOffset p + partSizeBytes p))).foldr
      insertByStart []) [] (if isGPT = true then 34 * 512 else 512)
    hused List.Pairwise.nil (by simp) (by simp)
  by_cases hsz : ((ps.map fun p =>
      (partStartOffset p, wrap64 (partStartOffset p + partSizeBytes p))).foldr
      insertByStart [] |>.foldl partGapStep
      ([], if isGPT = true then 34 * 512 else 512)).2 < size
  · rw [if_pos hsz]
    by_cases hlim : ((ps.map fun p =>
        (partStartOffset p, wrap64 (partStartOffset p + partSizeBytes p))).foldr
        insertByStart [] |>.foldl partGapStep
        ([], if isGPT = true then 34 * 512 else 512)).2 <
        (if isGPT = true then size - 33 * 512 else size)
    · rw [if_pos hlim]
      refine ⟨?_, ?_⟩
      · rw [List.pairwise_append]
        refine ⟨h1.1, List.pairwise_singleton _ _, ?_⟩
        intro a ha b hb
        rw [List.mem_singleton] at hb
        subst hb
        exact h1.2.2.1 a ha
      · intro x hx
        rcases List.mem_append.mp hx with hx | hx
        · exact h1.2.1 x hx
        · rw [List.mem_singleton] at hx
          subst hx
          exact hlim
    · rw [if_neg hlim]
      exact ⟨h1.1, h1.2.1⟩
  · rw [if_neg hsz]
    exact ⟨h1.1, h1.2.1⟩

set_option maxRecDepth 1000000 in
/-- C9 counterexample: on a GPT image whose first partition entry has
`end_lba < start_lba` (so its computed byte size is negative),
`part.FS.FreeBlocks` emits overlapping free ranges that are not in
ascending order, violating the claimed invariant. -/
theorem part_freeblocks_unordered :
    (parseGPT gptBadImage).toOption = some gptBadParts ∧
    partFreeBlocks true 51200 gptBadParts =
      [⟨17408, 20480⟩, ⟨17408, 25600⟩, ⟨30720, 34304⟩] ∧
    ¬ RangesWF (partFreeBlocks true 51200 gptBadParts) := by
  refine ⟨by decide, by decide, by decide⟩

/-- C9 (amended): free-space ordering.  Each `FreeBlocks` result is
ascending by start, pairwise non-overlapping, and has `End > Start` in
every range, under non-degenerate geometry: (a) FAT, whenever the
sector and cluster sizes are at least 1; (b) ext, whenever the block
size is at least 1, the block groups cover the block count, and the
total byte size stays below `2^62`; (c) the partition table, provided
every partition has a non-negative byte size and its used range stays
below `2^63` — the counterexample shows the invariant fails without
this proviso when `end_lba < start_lba`. -/
theorem freeblocks_ordered :
    (∀ (img : Image) (b : Bpb) (t : FatTable),
      1 ≤ b.bytesPerSector → 1 ≤ b.sectorsPerCluster →
      ∀ rs, fatFreeBlocks img b t = some rs → RangesWF rs) ∧
    (∀ (img : Image) (fs : ExtSB),
      1 ≤ fs.blockSize →
      fs.groupCount * fs.blocksPerGroup + fs.firstDataBlock <
        fs.blocksCount + fs.blocksPerGroup →
      fs.blocksCount * fs.blockSize < 2 ^ 62 →
      ∀ rs, extFreeBlocks img fs = some rs → RangesWF rs) ∧
    (∀ (isGPT : Bool) (size : Int) (ps : List Partition),
      (∀ p ∈ ps, 0 ≤ partSizeBytes p ∧
        partStartOffset p + partSizeBytes p < 2 ^ 63) →
      RangesWF (partFreeBlocks isGPT size ps)) :=
  ⟨fun img b t h1 h2 rs h => fatFreeBlocks_wf img b t h1 h2 rs h,
   fun img fs h1 h2 h3 rs h => extFreeBlocks_wf img fs h1 h2 h3 rs h,
   fun isGPT size ps h => partFreeBlocks_wf isGPT size ps h⟩

set_option maxRecDepth 1000000 in
/-- Witness: the three parts of `freeblocks_ordered` applied to a
concrete FAT16 area, a concrete two-group ext image, and an empty
partition list. -/
theorem freeblocks_ordered_witness :
    (fatFreeBlocks fatWitImage fatWitBpb fatWitTable =
        some [⟨2048, 3072⟩, ⟨3584, 4096⟩] ∧
      RangesWF [Range.mk 2048 3072, Range.mk 3584 4096]) ∧
    (extFreeBlocks extWitImage extWitSB = some [⟨1024, 16384⟩] ∧
      RangesWF [Range.mk 1024 16384]) ∧
    RangesWF (partFreeBlocks false 1024 []) :=
  ⟨⟨by decide,
    freeblocks_ordered.1 fatWitImage fatWitBpb fatWitTable
      (by decide) (by decide) [Range.mk 2048 3072, Range.mk 3584 4096]
      (by decide)⟩,
   ⟨by decide,
    freeblocks_ordered.2.1 extWitImage extWitSB
      (by decide) (by decide) (by decide) [Range.mk 1024 16384] (by decide)⟩,
   freeblocks_ordered.2.2 false 1024 [] (by simp)⟩

end Rawhide
